import Mathlib

/-!
# Verification development for `pkg/fsstat`

A shallow embedding of `fsstat.go` and `fsstat_linux.go`.

Conventions of the embedding.

* A Go `string` is a sequence of bytes.  It is modelled as `GoString = List Char`,
  one list element per byte (every byte value is a `Char`), so that `len`,
  `strings.HasPrefix`, `strings.Split` and friends act element-wise exactly as the
  Go functions act byte-wise.
* `uint64` values are `Nat` reduced modulo `2 ^ 64` where the code computes them;
  `int64` / `int` values are `Int`.
* A pointer that may be `nil` is an `Option`; an `error` is an `Option GoError`.
* The operating system is an explicit environment `Env`: the `statfs` oracle, the
  content of `/proc/self/mountinfo` (if it can be opened) and the table behind
  `_PATH_MOUNTED` (if it can be opened).
* Methods on `*FSstat` take the object and return the updated object.
-/

namespace Fsstat

/-! ## Strings -/

/-- A Go string: its bytes, in order. -/
abbrev GoString := List Char

/-- Go `strings.HasPrefix(s, prefix)`:
`len(s) >= len(prefix) && s[:len(prefix)] == prefix`. -/
def HasPrefix (s pre : GoString) : Bool :=
  decide (pre.length ≤ s.length) && (s.take pre.length == pre)

/-- Go `strings.Split(s, sep)` for a one-byte separator `sep`: the pieces of `s`
between consecutive occurrences of `sep` (one more piece than occurrences). -/
def Split : GoString → Char → List GoString
  | [], _ => [[]]
  | c :: cs, sep =>
    if c = sep then [] :: Split cs sep
    else
      match Split cs sep with
      | [] => [[c]]
      | w :: ws => (c :: w) :: ws

/-- Go `strings.TrimRight(s, cutset)`: `s` without its trailing bytes that belong to
`cutset`. -/
def TrimRight (s cutset : GoString) : GoString :=
  (s.reverse.dropWhile (fun c => decide (c ∈ cutset))).reverse

/-- Go `(*bufio.Reader).ReadString(delim)` on a reader whose unread content is `buf`:
the line up to and including the first `delim` together with the content left unread,
or `none` (the call returns `io.EOF`) when no `delim` is left. -/
def ReadString (delim : Char) : GoString → Option (GoString × GoString)
  | [] => none
  | c :: cs =>
    if c = delim then some ([c], cs)
    else
      match ReadString delim cs with
      | none => none
      | some (line, rest) => some (c :: line, rest)

/-- Go slice indexing `words[i]` (used only under a length guard). -/
def idx (words : List GoString) (i : Nat) : GoString := words.getD i []

/-! ## Machine integers -/

/-- The bit pattern of an `int64` read as a `uint64` (Go conversion `uint64(x)`). -/
def toU64 (x : Int) : Nat := (x % 2 ^ 64).toNat

/-- The `int64` with a given 64-bit pattern (Go conversion `int64(u)`). -/
def toI64 (u : Nat) : Int :=
  if u % 2 ^ 64 < 2 ^ 63 then ((u % 2 ^ 64 : Nat) : Int) else ((u % 2 ^ 64 : Nat) : Int) - 2 ^ 64

/-- Go `a & b` on `int64`: bitwise AND of the two's-complement patterns. -/
def int64And (a b : Int) : Int := toI64 (toU64 a &&& toU64 b)

/-- Go `a * b` on `uint64`. -/
def mulU64 (a b : Nat) : Nat := (a * b) % 2 ^ 64

/-- Constant `math.MaxUint64`. -/
def MaxUint64 : Nat := 2 ^ 64 - 1

/-- Constant `syscall.MS_RDONLY`. -/
def MS_RDONLY : Int := 1

/-! ## Data model (`fsstat_linux.go`) -/

/-- Go struct `MountEntry`. -/
structure MountEntry where
  Name : GoString
  Dir : GoString
  /-- Go field `Type` (a reserved word here). -/
  Type_ : GoString
  Options : List GoString
  DumpFrequency : Int
  PassNumber : Int
  deriving DecidableEq, Repr

/-- Go struct `Option` (named `MountOption` here, `Option` being taken). -/
structure MountOption where
  Name : GoString
  Value : GoString
  deriving DecidableEq, Repr

/-- Go struct `MountInfo`, embedding `MountEntry`. -/
structure MountInfo extends MountEntry where
  MountID : Int
  ParentID : Int
  Major : Int
  Minor : Int
  Root : GoString
  OptionalFields : GoString
  SuperOptions : List MountOption
  deriving DecidableEq, Repr

/-- The zero value `MountInfo{}`. -/
def MountInfo.zero : MountInfo :=
  { Name := [], Dir := [], Type_ := [], Options := [], DumpFrequency := 0, PassNumber := 0,
    MountID := 0, ParentID := 0, Major := 0, Minor := 0, Root := [], OptionalFields := [],
    SuperOptions := [] }

/-- C `struct mntent`, as returned by `getmntent`. -/
structure Mntent where
  mnt_fsname : GoString
  mnt_dir : GoString
  mnt_type : GoString
  mnt_opts : GoString
  mnt_freq : Int
  mnt_passno : Int
  deriving DecidableEq, Repr

/-- Go `syscall.Statfs_t`, the fields the package reads. -/
structure Statfs_t where
  Blocks : Nat
  Bfree : Nat
  Bavail : Nat
  Frsize : Int
  /-- Go field `Type` (a reserved word here). -/
  Type_ : Int
  Flags : Int
  deriving DecidableEq, Repr

/-- Error values of the package: an `errno` from `syscall.Statfs`, or the
`fmt.Errorf("failed to open ...")` of `newMountInfoParser`. -/
inductive GoError where
  | errno (n : Nat)
  | openFailed
  deriving DecidableEq, Repr

/-- The operating system as seen by the package. -/
structure Env where
  /-- Oracle `syscall.Statfs(path, &buf)`. -/
  statfs : GoString → Except GoError Statfs_t
  /-- Content of `/proc/self/mountinfo`, `none` when it cannot be opened. -/
  procMountinfo : Option GoString
  /-- Records `getmntent` yields on `_PATH_MOUNTED`, `none` when `fdopen` fails. -/
  mounted : Option (List Mntent)
  /-- The helper `parseInt`, defined outside `fsstat.go` and `fsstat_linux.go`: the
  value it stores through its pointer argument for a given text. -/
  parseInt : GoString → Int

/-! ## The mount-table parser (`fsstat_linux.go`) -/

/-- Go struct `mountInfoParser`, reduced to what `next` reads: either the buffered
reader over `/proc/self/mountinfo` with its unread content (`fp == nil`), or the C
stream over `_PATH_MOUNTED` with the records `getmntent` has still to return. -/
inductive mountInfoParser where
  | reader (buf : GoString)
  | fp (records : List Mntent)
  deriving DecidableEq, Repr

/-- Go `newMountInfoParser`: `/proc/self/mountinfo` first; if it cannot be opened,
`_PATH_MOUNTED` through `fdopen`, whose failure is the only error. -/
def newMountInfoParser (env : Env) : Except GoError mountInfoParser :=
  match env.procMountinfo with
  | some content => .ok (.reader content)
  | none =>
    match env.mounted with
    | none => .error .openFailed
    | some records => .ok (.fp records)

/-- The loop of `next` over `superOptions`: `pair := strings.Split(option, "=")`,
`Name = pair[0]`, and `Value = pair[1]` only `if len(pair) == 2`. -/
def superOption (option : GoString) : MountOption :=
  let pair := Split option '='
  { Name := idx pair 0, Value := if pair.length = 2 then idx pair 1 else [] }

/-- The part of `next` that follows a successful `ReadString` (source lines 104-147),
for the line read.  The `err` tested after each `parseInt` call is the `nil` error of
`ReadString`, so those four tests never return. -/
def nextLine (parseInt : GoString → Int) (line : GoString) : Option MountInfo :=
  let words := Split line ' '
  if words.length < 11 then none
  else
    let superOptions := Split (TrimRight (idx words 10) ['\n']) ','
    let majorMinor := Split (idx words 2) ':'
    if majorMinor.length < 2 then none
    else
      some
        { Name := idx words 9
          Dir := idx words 4
          Type_ := idx words 8
          Options := Split (idx words 5) ','
          DumpFrequency := 0
          PassNumber := 0
          MountID := parseInt (idx words 0)
          ParentID := parseInt (idx words 1)
          Major := parseInt (idx majorMinor 0)
          Minor := parseInt (idx majorMinor 1)
          Root := idx words 3
          OptionalFields := idx words 6
          SuperOptions := superOptions.map superOption }

/-- Go `(*mountInfoParser).next`: the entry returned (`none` for `nil`) and the parser
afterwards. -/
def mountInfoParser.next (parseInt : GoString → Int) :
    mountInfoParser → Option MountInfo × mountInfoParser
  | .fp [] => (none, .fp [])
  | .fp (mnt :: records) =>
    (some
      { MountInfo.zero with
        Name := mnt.mnt_fsname
        Dir := mnt.mnt_dir
        Type_ := mnt.mnt_type
        Options := Split mnt.mnt_opts ','
        DumpFrequency := mnt.mnt_freq
        PassNumber := mnt.mnt_passno },
     .fp records)
  | .reader buf =>
    match ReadString '\n' buf with
    | none => (none, .reader [])
    | some (line, rest) => (nextLine parseInt line, .reader rest)

/-- What is left to read: a bound on the number of entries `next` can still return. -/
def mountInfoParser.size : mountInfoParser → Nat
  | .reader buf => buf.length
  | .fp records => records.length

/-- The `for` loop of `MountInfoList`; `fuel` bounds the number of iterations. -/
def MountInfoList.loop (parseInt : GoString → Int) :
    Nat → mountInfoParser → List MountInfo → List MountInfo
  | 0, _, res => res
  | fuel + 1, p, res =>
    match p.next parseInt with
    | (none, _) => res
    | (some mountinfo, p') => MountInfoList.loop parseInt fuel p' (res ++ [mountinfo])

/-- Go `MountInfoList`.  The loop is given `size + 1` iterations, which it never
exhausts (`MountInfoList.loop_fuel`). -/
def MountInfoList (env : Env) : Except GoError (List MountInfo) :=
  match newMountInfoParser env with
  | .error err => .error err
  | .ok parser => .ok (MountInfoList.loop env.parseInt (parser.size + 1) parser [])

/-! ## Mount resolution (`initMountInfo`) -/

/-- The body of the `for` loop of `initMountInfo`, on the pair
`(dirPathLength, fs.mountInfo)`. -/
def selectStep (path : GoString) (st : Nat × Option MountInfo) (mountinfo : MountInfo) :
    Nat × Option MountInfo :=
  if HasPrefix path mountinfo.Dir && decide (st.1 < mountinfo.Dir.length) then
    (mountinfo.Dir.length, some mountinfo)
  else st

/-- The `for` loop of `initMountInfo`; `fuel` bounds the number of iterations. -/
def initMountInfo.loop (parseInt : GoString → Int) (path : GoString) :
    Nat → mountInfoParser → Nat × Option MountInfo → Nat × Option MountInfo
  | 0, _, st => st
  | fuel + 1, p, st =>
    match p.next parseInt with
    | (none, _) => st
    | (some mountinfo, p') => initMountInfo.loop parseInt path fuel p' (selectStep path st mountinfo)

/-- The loop of `initMountInfo` run over a given ordered list of entries, from
`dirPathLength = 0` and the mount entry `prev` the object held before. -/
def resolveFrom (path : GoString) (prev : Option MountInfo) (entries : List MountInfo) :
    Option MountInfo :=
  (entries.foldl (selectStep path) (0, prev)).2

/-- Mount resolution started from an object with no mount entry. -/
def resolve (path : GoString) (entries : List MountInfo) : Option MountInfo :=
  resolveFrom path none entries

/-! ## The statistics object (`fsstat.go`) -/

/-- Go struct `FSstat`. -/
structure FSstat where
  capacity : Nat
  free : Nat
  available : Nat
  fstype : Int
  flags : Int
  mountInfo : Option MountInfo
  path : GoString
  deriving DecidableEq, Repr

/-- The zero value `FSstat{}`. -/
def FSstat.zero : FSstat :=
  { capacity := 0, free := 0, available := 0, fstype := 0, flags := 0, mountInfo := none,
    path := [] }

/-- Go `(*FSstat).invalidate`. -/
def FSstat.invalidate (fs : FSstat) : FSstat :=
  { fs with
    capacity := MaxUint64
    free := MaxUint64
    available := MaxUint64
    flags := 0
    fstype := 0
    mountInfo := none
    path := [] }

/-- Go `(*FSstat).setPath` (the unexported one, `fsstat_linux.go`). -/
def FSstat.setPath (env : Env) (fs : FSstat) (path : GoString) : FSstat × Option GoError :=
  match env.statfs path with
  | .error err => (fs, some err)
  | .ok buf =>
    ({ fs with
       capacity := mulU64 buf.Blocks (toU64 buf.Frsize)
       free := mulU64 buf.Bfree (toU64 buf.Frsize)
       available := mulU64 buf.Bavail (toU64 buf.Frsize)
       fstype := buf.Type_
       flags := buf.Flags }, none)

/-- Go `(*FSstat).initMountInfo`. -/
def FSstat.initMountInfo (env : Env) (fs : FSstat) (path : GoString) :
    FSstat × Option GoError :=
  match newMountInfoParser env with
  | .error err => (fs, some err)
  | .ok parser =>
    ({ fs with
       mountInfo :=
         (initMountInfo.loop env.parseInt path (parser.size + 1) parser (0, fs.mountInfo)).2 },
     none)

/-- Go `(*FSstat).update`. -/
def FSstat.update (env : Env) (fs : FSstat) : FSstat × Option GoError :=
  match fs.setPath env fs.path with
  | (fs1, some err) => (fs1, some err)
  | (fs1, none) =>
    match fs1.initMountInfo env fs1.path with
    | (fs2, some err) => (fs2, some err)
    | (fs2, none) => (fs2, none)

/-- Go `NewFSstat`: `fsstat := FSstat{}; return fsstat.invalidate(), fsstat.update()`.
The operands are evaluated left to right and the first is a pointer to `fsstat`, so
the object returned is the one `update` has worked on.  The parameter `path` does not
occur in the body. -/
def NewFSstat (env : Env) (_path : GoString) : FSstat × Option GoError :=
  let fsstat := FSstat.zero
  fsstat.invalidate.update env

/-- Go `(*FSstat).Update`. -/
def FSstat.Update (env : Env) (fs : FSstat) : FSstat × Option GoError :=
  fs.update env

/-- Go `(*FSstat).SetPath`. -/
def FSstat.SetPath (env : Env) (fs : FSstat) (path : GoString) : FSstat × Option GoError :=
  let fs1 := fs.invalidate
  let fs2 := { fs1 with path := path }
  fs2.update env

/-- Go `(*FSstat).BytesCapacity`. -/
def FSstat.BytesCapacity (fs : FSstat) : Nat := fs.capacity

/-- Go `(*FSstat).BytesFree`. -/
def FSstat.BytesFree (fs : FSstat) : Nat := fs.free

/-- Go `(*FSstat).BytesAvailable`. -/
def FSstat.BytesAvailable (fs : FSstat) : Nat := fs.available

/-- Go `(*FSstat).IsReadOnly`: `fs.flags&syscall.MS_RDONLY == 1`, where `&` binds
tighter than `==`. -/
def FSstat.IsReadOnly (fs : FSstat) : Bool := decide (int64And fs.flags MS_RDONLY = 1)

/-- Go `(*FSstat).Type`. -/
def FSstat.Type_ (fs : FSstat) : Int := fs.fstype

/-! ## Specification-side notions and concrete inputs -/

/-- The state of the resolution loop after the entries `entries`. -/
def Selected (path : GoString) (entries : List MountInfo) (st : Nat × Option MountInfo) :
    Prop :=
  match st.2 with
  | none => st.1 = 0 ∧ ∀ e ∈ entries, e.Dir <+: path → e.Dir.length = 0
  | some e =>
    st.1 = e.Dir.length ∧ 0 < e.Dir.length ∧ e.Dir <+: path ∧
      (∀ e' ∈ entries, e'.Dir <+: path → e'.Dir.length ≤ e.Dir.length) ∧
      ∃ i, entries[i]? = some e ∧
        ∀ (j : Nat) (e' : MountInfo), j < i → entries[j]? = some e' → e'.Dir <+: path →
          e'.Dir.length < e.Dir.length

/-- A table with the directories `/`, `/home` and twice `/home/user`. -/
def homeTable : List MountInfo :=
  [{ MountInfo.zero with Dir := "/".toList },
   { MountInfo.zero with Dir := "/home".toList },
   { MountInfo.zero with Dir := "/home/user".toList, MountID := 1 },
   { MountInfo.zero with Dir := "/home/user".toList, MountID := 2 }]

/-- The statistics of an ext4 root: 1000 blocks of 4096 bytes, 400 free, 300 available,
mounted read-only. -/
def ext4Buf : Statfs_t :=
  { Blocks := 1000, Bfree := 400, Bavail := 300, Frsize := 4096, Type_ := 0xEF53, Flags := 1 }

/-- An environment in which only `/` can be queried (any other path, the empty path
included, gives `ENOENT`), with an empty `/proc/self/mountinfo`. -/
def rootOnlyEnv : Env :=
  { statfs := fun p => if p = "/".toList then .ok ext4Buf else .error (.errno 2)
    procMountinfo := some []
    mounted := none
    parseInt := fun _ => 0 }

/-- An environment in which every path can be queried but no mount table can be
opened. -/
def noTableEnv : Env :=
  { statfs := fun _ => .ok ext4Buf
    procMountinfo := none
    mounted := none
    parseInt := fun _ => 0 }

/-- A populated object bound to `/data`. -/
def dataFs : FSstat :=
  { capacity := 4096000, free := 1638400, available := 1228800, fstype := 0xEF53, flags := 1,
    mountInfo := some { MountInfo.zero with Dir := "/data".toList }, path := "/data".toList }

/-- Statistics whose free-byte product wraps around: `2 ^ 63` free blocks, one available
block, fragment size 2. -/
def wrapBuf : Statfs_t :=
  { Blocks := 2 ^ 63, Bfree := 2 ^ 63, Bavail := 1, Frsize := 2, Type_ := 0xEF53, Flags := 0 }

/-- An environment reporting `wrapBuf` for every path. -/
def wrapEnv : Env :=
  { statfs := fun _ => .ok wrapBuf
    procMountinfo := some []
    mounted := none
    parseInt := fun _ => 0 }

/-- The complete lines of a file content, without their terminator: the pieces between
newlines, the unterminated tail (possibly empty) left out. -/
def completeLines (content : GoString) : List GoString :=
  (Split content '\n').dropLast

/-- Lines `ls` written out as a file content, each terminated by a newline. -/
def joinLines : List GoString → GoString
  | [] => []
  | l :: ls => l ++ '\n' :: joinLines ls

/-- The values of a list of optional results up to, and without, the first `none`. -/
def untilNone {α : Type} : List (Option α) → List α
  | some a :: rest => a :: untilNone rest
  | _ => []

/-- A record with one optional field (the example of the kernel documentation). -/
def lineOneOptional : GoString :=
  "36 35 98:0 /mnt1 /mnt2 rw,noatime master:1 - ext3 /dev/root rw,errors=continue".toList

/-- The same record with no optional field. -/
def lineNoOptional : GoString :=
  "36 35 98:0 /mnt1 /mnt2 rw,noatime - ext3 /dev/root rw,errors=continue".toList

/-- The same record with two optional fields. -/
def lineTwoOptional : GoString :=
  "36 35 98:0 /mnt1 /mnt2 rw,noatime shared:1 master:2 - ext3 /dev/root rw,errors=continue".toList

/-- A record of five fields. -/
def lineShort : GoString := "37 35 98:1 / /boot".toList

/-- An environment whose `/proc/self/mountinfo` holds a well-formed record, a record
of five fields and the well-formed record again. -/
def shortLineEnv : Env :=
  { statfs := fun _ => .ok ext4Buf
    procMountinfo := some (joinLines [lineOneOptional] ++ lineShort ++ ['\n'] ++
      joinLines [lineOneOptional])
    mounted := none
    parseInt := fun _ => 0 }

/-- An environment whose `/proc/self/mountinfo` holds the single record
`lineNoOptional`. -/
def noOptionalEnv : Env :=
  { statfs := fun _ => .ok ext4Buf
    procMountinfo := some (joinLines [lineNoOptional])
    mounted := none
    parseInt := fun _ => 0 }

/-- Decimal integer syntax: an optional sign followed by at least one decimal digit
(the texts `strconv.Atoi` accepts, range aside). -/
def isIntegerString (s : GoString) : Bool :=
  let digits :=
    match s with
    | '+' :: t => t
    | '-' :: t => t
    | _ => s
  !digits.isEmpty && digits.all Char.isDigit

/-- A record of 11 fields whose mount ID, parent ID, major and minor are no integers. -/
def lineBadInts : GoString :=
  "abc 3x5 9z:q /mnt1 /mnt2 rw,noatime master:1 - ext3 /dev/root rw,errors=continue".toList

/-- A record of 11 fields whose third field has three colon-separated components. -/
def lineThreeComponents : GoString :=
  "36 35 8:1:2 /mnt1 /mnt2 rw,noatime master:1 - ext3 /dev/root rw,errors=continue".toList

/-- A record of 11 fields whose third field has a single component. -/
def lineOneComponent : GoString :=
  "36 35 8 /mnt1 /mnt2 rw,noatime master:1 - ext3 /dev/root rw,errors=continue".toList

/-- A record of 11 fields whose super-block options hold an item with two `=`. -/
def lineTwoEquals : GoString :=
  "36 35 98:0 /mnt1 /mnt2 rw,noatime master:1 - ext3 /dev/root rw,a=b=c,errors=continue".toList

/-- The text of `item` before its first `c` (all of it when `c` does not occur). -/
def beforeFirst (c : Char) (item : GoString) : GoString :=
  item.takeWhile (fun x => x != c)

/-- The text of `item` after its first `c` (empty when `c` does not occur). -/
def afterFirst (c : Char) (item : GoString) : GoString :=
  (item.dropWhile (fun x => x != c)).drop 1

/-- A record of the legacy mount table. -/
def rootMntent : Mntent :=
  { mnt_fsname := "/dev/sda1".toList, mnt_dir := "/".toList, mnt_type := "ext4".toList,
    mnt_opts := "rw,relatime,errors=remount-ro".toList, mnt_freq := 0, mnt_passno := 1 }

/-- An environment in which every path can be queried and the only mount table is the
legacy one, holding a single mount on `/mnt`. -/
def otherMountEnv : Env :=
  { statfs := fun _ => .ok ext4Buf
    procMountinfo := none
    mounted := some [{ rootMntent with mnt_dir := "/mnt".toList }]
    parseInt := fun _ => 0 }

/-- The entry `next` returns for `lineOneOptional` when `parseInt` stores 0. -/
def oneOptionalEntry : MountInfo :=
  { Name := "/dev/root".toList, Dir := "/mnt2".toList, Type_ := "ext3".toList,
    Options := ["rw".toList, "noatime".toList], DumpFrequency := 0, PassNumber := 0,
    MountID := 0, ParentID := 0, Major := 0, Minor := 0, Root := "/mnt1".toList,
    OptionalFields := "master:1".toList,
    SuperOptions := [{ Name := "rw".toList, Value := [] },
                     { Name := "errors".toList, Value := "continue".toList }] }

/-- A line made of spaces and one colon: 11 pieces, all empty but the third, `:`. -/
def lineEmptyPieces : GoString := "  :        ".toList

/-- The fields of a primary-format record that follow its separator `-`, the
separator being looked for from field 6 on (fields 0 to 5 are fixed, then come the
optional fields): the filesystem type, the mount source, the super-block options. -/
def afterSeparator (words : List GoString) : List GoString :=
  ((words.drop 6).dropWhile (fun w => w != ['-'])).drop 1

/-- The super-options field of a primary-format record: the third field after the
separator. -/
def superOptionsField (words : List GoString) : GoString :=
  idx (afterSeparator words) 2

/-- The whitespace-separated fields of a line whose only white space is the space
(Go `strings.Fields`): the non-empty pieces between spaces. -/
def Fields (s : GoString) : List GoString :=
  (Split s ' ').filter (fun w => !w.isEmpty)

/-- A well-formed primary-format line, terminator left out: at least 11 pieces between
single spaces, integer mount ID and parent ID, and a third piece of exactly two
colon-separated integer components. -/
def wellFormedLine (l : GoString) : Bool :=
  let words := Split l ' '
  let majorMinor := Split (idx words 2) ':'
  decide (11 ≤ words.length) && isIntegerString (idx words 0) &&
    isIntegerString (idx words 1) && decide (majorMinor.length = 2) &&
    isIntegerString (idx majorMinor 0) && isIntegerString (idx majorMinor 1)

/-- The record of five fields `lineShort` followed by six spaces. -/
def lineShortPadded : GoString := "37 35 98:1 / /boot      ".toList

/-- An environment whose `/proc/self/mountinfo` holds the padded record of five fields
and then a well-formed record. -/
def paddedEnv : Env :=
  { statfs := fun _ => .ok ext4Buf
    procMountinfo := some (joinLines [lineShortPadded, lineOneOptional])
    mounted := none
    parseInt := fun _ => 0 }

/-- An environment whose `/proc/self/mountinfo` holds the record with non-integer
fields and then a well-formed record. -/
def badIntsEnv : Env :=
  { statfs := fun _ => .ok ext4Buf
    procMountinfo := some (joinLines [lineBadInts, lineOneOptional])
    mounted := none
    parseInt := fun _ => 0 }

/-! ## Lemmas on mount resolution -/


theorem HasPrefix_iff (s pre : GoString) : HasPrefix s pre = true ↔ pre <+: s := by
  unfold HasPrefix
  rw [List.prefix_iff_eq_take]
  simp only [Bool.and_eq_true, decide_eq_true_eq, beq_iff_eq]
  constructor
  · rintro ⟨_, h⟩
    exact h.symm
  · intro h
    refine ⟨?_, h.symm⟩
    have := congrArg List.length h
    simp at this
    omega

theorem selected_le (path : GoString) (l : List MountInfo) (d : Nat) (m : Option MountInfo)
    (ih : Selected path l (d, m)) (e' : MountInfo) (he' : e' ∈ l) (hpre : e'.Dir <+: path) :
    e'.Dir.length ≤ d := by
  cases m with
  | none =>
    have := ih.2 e' he' hpre
    omega
  | some e =>
    obtain ⟨h1, _, _, h4, _⟩ := ih
    have := h4 e' he' hpre
    simp only at h1
    omega

theorem selected_keep (path : GoString) (l : List MountInfo) (x : MountInfo) (d : Nat)
    (m : Option MountInfo) (ih : Selected path l (d, m))
    (hx : x.Dir <+: path → x.Dir.length ≤ d) : Selected path (l ++ [x]) (d, m) := by
  cases m with
  | none =>
    obtain ⟨h1, h2⟩ := ih
    refine ⟨h1, ?_⟩
    intro e he hpre
    rcases List.mem_append.1 he with he | he
    · exact h2 e he hpre
    · rw [List.mem_singleton] at he
      subst he
      have := hx hpre
      simp only at h1
      omega
  | some e =>
    obtain ⟨h1, h2, h3, h4, i, hi, h5⟩ := ih
    refine ⟨h1, h2, h3, ?_, i, ?_, ?_⟩
    · intro e' he' hpre
      rcases List.mem_append.1 he' with he' | he'
      · exact h4 e' he' hpre
      · rw [List.mem_singleton] at he'
        subst he'
        have := hx hpre
        simp only at h1
        omega
    · obtain ⟨hlt, _⟩ := List.getElem?_eq_some_iff.1 hi
      rw [List.getElem?_append_left hlt]
      exact hi
    · intro j e' hj hje hpre
      obtain ⟨hlt, _⟩ := List.getElem?_eq_some_iff.1 hi
      rw [List.getElem?_append_left (by omega)] at hje
      exact h5 j e' hj hje hpre

theorem selected_foldl (path : GoString) (entries : List MountInfo) :
    Selected path entries (entries.foldl (selectStep path) (0, none)) := by
  induction entries using List.reverseRecOn with
  | nil => simp [Selected]
  | append_singleton l x ih =>
    rw [List.foldl_append]
    simp only [List.foldl_cons, List.foldl_nil]
    generalize l.foldl (selectStep path) (0, none) = st at ih
    obtain ⟨d, m⟩ := st
    unfold selectStep
    by_cases hp : HasPrefix path x.Dir = true
    · have hp' := (HasPrefix_iff _ _).1 hp
      by_cases hlt : d < x.Dir.length
      · simp only [hp, hlt, decide_True, Bool.and_self, if_true]
        refine ⟨rfl, by omega, hp', ?_, l.length, List.getElem?_concat_length l x, ?_⟩
        · intro e' he' hpre
          rcases List.mem_append.1 he' with he' | he'
          · have := selected_le path l d m ih e' he' hpre
            omega
          · rw [List.mem_singleton] at he'
            subst he'
            exact le_refl _
        · intro j e' hj hje hpre
          rw [List.getElem?_append_left hj] at hje
          have := selected_le path l d m ih e' (List.getElem?_mem hje) hpre
          omega
      · simp only [hp, hlt, decide_False, Bool.and_false, if_false]
        exact selected_keep path l x d m ih (fun _ => by omega)
    · simp only [hp, Bool.false_and, if_false]
      exact selected_keep path l x d m ih
        (fun hpre => absurd ((HasPrefix_iff _ _).2 hpre) hp)

theorem resolve_none_spec (path : GoString) (entries : List MountInfo)
    (hres : resolve path entries = none) :
    ∀ e ∈ entries, e.Dir <+: path → e.Dir.length = 0 := by
  have h := selected_foldl path entries
  unfold resolve resolveFrom at hres
  unfold Selected at h
  rw [hres] at h
  exact h.2

theorem resolve_some_spec (path : GoString) (entries : List MountInfo) (e : MountInfo)
    (hres : resolve path entries = some e) :
    0 < e.Dir.length ∧ e.Dir <+: path ∧
      (∀ e' ∈ entries, e'.Dir <+: path → e'.Dir.length ≤ e.Dir.length) ∧
      ∃ i, entries[i]? = some e ∧
        ∀ (j : Nat) (e' : MountInfo), j < i → entries[j]? = some e' → e'.Dir <+: path →
          e'.Dir.length < e.Dir.length := by
  have h := selected_foldl path entries
  unfold resolve resolveFrom at hres
  unfold Selected at h
  rw [hres] at h
  exact h.2

/-- If one entry of the list is a non-empty prefix of the path and every other prefix
entry is strictly shorter, resolution selects that entry. -/
theorem resolve_eq_some_of_longest (path : GoString) (entries : List MountInfo)
    (e : MountInfo) (hmem : e ∈ entries) (hpre : e.Dir <+: path) (hne : 0 < e.Dir.length)
    (huniq : ∀ e' ∈ entries, e'.Dir <+: path → e' = e ∨ e'.Dir.length < e.Dir.length) :
    resolve path entries = some e := by
  cases hres : resolve path entries with
  | none =>
    have := resolve_none_spec path entries hres e hmem hpre
    omega
  | some e0 =>
    obtain ⟨_, h2, h3, i, hi, _⟩ := resolve_some_spec path entries e0 hres
    have hle := h3 e hmem hpre
    rcases huniq e0 (List.getElem?_mem hi) h2 with h | h
    · rw [h]
    · omega

/-! ## Claims on mount resolution -/

/-- C1: when mount resolution, started with no mount entry, selects an entry `e` from
the ordered list `entries`, then `e.Dir` is a string prefix of `path`, no entry whose
`Dir` is a prefix of `path` has a longer `Dir`, and `e` sits at a position `i` of the
list such that every prefix entry at an earlier position is strictly shorter (so `e` is
the first of the prefix entries of maximal length). -/
theorem resolve_selects_first_longest (path : GoString) (entries : List MountInfo)
    (e : MountInfo) (h : resolve path entries = some e) :
    e.Dir <+: path ∧
      (∀ e' ∈ entries, e'.Dir <+: path → e'.Dir.length ≤ e.Dir.length) ∧
      ∃ i, entries[i]? = some e ∧
        ∀ (j : Nat) (e' : MountInfo), j < i → entries[j]? = some e' → e'.Dir <+: path →
          e'.Dir.length < e.Dir.length :=
  (resolve_some_spec path entries e h).2

/-- Witness of C1: the table `/`, `/home`, `/home/user`, `/home/user` (a second entry
on the same directory) and the path `/home/user/docs`. -/
theorem resolve_selects_first_longest_witness :
    resolve "/home/user/docs".toList homeTable
        = some { MountInfo.zero with Dir := "/home/user".toList, MountID := 1 } ∧
      ("/home/user".toList <+: "/home/user/docs".toList) ∧
      (∀ e' ∈ homeTable, e'.Dir <+: "/home/user/docs".toList →
        e'.Dir.length ≤ "/home/user".toList.length) ∧
      ∃ i, homeTable[i]? = some { MountInfo.zero with Dir := "/home/user".toList, MountID := 1 } ∧
        ∀ (j : Nat) (e' : MountInfo), j < i → homeTable[j]? = some e' →
          e'.Dir <+: "/home/user/docs".toList → e'.Dir.length < "/home/user".toList.length :=
  ⟨by decide,
   resolve_selects_first_longest "/home/user/docs".toList homeTable
     { MountInfo.zero with Dir := "/home/user".toList, MountID := 1 } (by decide)⟩

/-- C2, as stated, fails: the one-entry table whose entry has an empty `Dir` has an
entry whose `Dir` is a prefix of the path `/`, yet resolution yields no entry. -/
theorem resolve_empty_dir_not_selected :
    (∃ e ∈ [MountInfo.zero], e.Dir <+: "/".toList) ∧
      resolve "/".toList [MountInfo.zero] = none := by
  refine ⟨⟨MountInfo.zero, by simp, ?_⟩, by decide⟩
  exact List.nil_prefix

/-- C2, amended: mount resolution yields no entry exactly when no entry with a
non-empty `Dir` has its `Dir` as a string prefix of the path, and an entry whose `Dir`
is empty is never selected; in particular it yields none on the empty list and when no
`Dir` is a prefix, and yields some entry, of non-empty `Dir`, as soon as one non-empty
`Dir` is a prefix. -/
theorem resolve_eq_none_iff (path : GoString) (entries : List MountInfo) :
    (resolve path entries = none ↔ ∀ e ∈ entries, e.Dir <+: path → e.Dir = []) ∧
      (∀ e, resolve path entries = some e → e.Dir ≠ []) ∧
      ((∃ e ∈ entries, e.Dir <+: path ∧ e.Dir ≠ []) →
        ∃ e, resolve path entries = some e ∧ e ∈ entries ∧ e.Dir ≠ []) := by
  have hsome : ∀ e, resolve path entries = some e → e.Dir ≠ [] ∧ e ∈ entries := by
    intro e he
    obtain ⟨h1, _, _, i, hi, _⟩ := resolve_some_spec path entries e he
    refine ⟨?_, List.getElem?_mem hi⟩
    intro h0
    rw [h0] at h1
    simp at h1
  have hiff : resolve path entries = none ↔
      ∀ e ∈ entries, e.Dir <+: path → e.Dir = [] := by
    constructor
    · intro h e he hpre
      exact List.length_eq_zero.1 (resolve_none_spec path entries h e he hpre)
    · intro h
      cases hres : resolve path entries with
      | none => rfl
      | some e0 =>
        obtain ⟨_, h2, _, i, hi, _⟩ := resolve_some_spec path entries e0 hres
        exact absurd (h e0 (List.getElem?_mem hi) h2) (hsome e0 hres).1
  refine ⟨hiff, fun e he => (hsome e he).1, ?_⟩
  rintro ⟨e, he, hpre, hne⟩
  cases hres : resolve path entries with
  | none => exact absurd (hiff.1 hres e he hpre) hne
  | some e0 => exact ⟨e0, rfl, (hsome e0 hres).2, (hsome e0 hres).1⟩

/-- C3: with three entries whose directories are `/`, `/home` and `/home/user`, in any
order, the path `/home/user/docs` resolves to the `/home/user` entry and the path
`/home2` resolves to the `/home` entry; and every directory `d` is a candidate
(`strings.HasPrefix` holds) for every path `d ++ s`. -/
theorem resolve_plain_string_matching (a b c : MountInfo) (entries : List MountInfo)
    (ha : a.Dir = "/".toList) (hb : b.Dir = "/home".toList)
    (hc : c.Dir = "/home/user".toList) (hperm : entries.Perm [a, b, c]) :
    resolve "/home/user/docs".toList entries = some c ∧
      resolve "/home2".toList entries = some b ∧
      ∀ d s : GoString, HasPrefix (d ++ s) d = true := by
  refine ⟨?_, ?_, ?_⟩
  · apply resolve_eq_some_of_longest
    · exact hperm.mem_iff.2 (by simp)
    · rw [hc]; decide
    · rw [hc]; decide
    · intro e' he' hpre
      have hmem := hperm.mem_iff.1 he'
      simp only [List.mem_cons, List.mem_singleton, List.not_mem_nil, or_false] at hmem
      rcases hmem with h | h | h
      · right; rw [h, ha, hc]; decide
      · right; rw [h, hb, hc]; decide
      · left; exact h
  · apply resolve_eq_some_of_longest
    · exact hperm.mem_iff.2 (by simp)
    · rw [hb]; decide
    · rw [hb]; decide
    · intro e' he' hpre
      have hmem := hperm.mem_iff.1 he'
      simp only [List.mem_cons, List.mem_singleton, List.not_mem_nil, or_false] at hmem
      rcases hmem with h | h | h
      · right; rw [h, ha, hb]; decide
      · left; exact h
      · exfalso
        rw [h, hc] at hpre
        revert hpre
        decide
  · intro d s
    exact (HasPrefix_iff _ _).2 (List.prefix_append d s)

/-- Witness of C3: the order `/home`, `/home/user`, `/`. -/
theorem resolve_plain_string_matching_witness :
    [{ MountInfo.zero with Dir := "/home".toList },
     { MountInfo.zero with Dir := "/home/user".toList },
     { MountInfo.zero with Dir := "/".toList }].Perm
      [{ MountInfo.zero with Dir := "/".toList },
       { MountInfo.zero with Dir := "/home".toList },
       { MountInfo.zero with Dir := "/home/user".toList }] ∧
    resolve "/home/user/docs".toList
        [{ MountInfo.zero with Dir := "/home".toList },
         { MountInfo.zero with Dir := "/home/user".toList },
         { MountInfo.zero with Dir := "/".toList }]
      = some { MountInfo.zero with Dir := "/home/user".toList } ∧
    resolve "/home2".toList
        [{ MountInfo.zero with Dir := "/home".toList },
         { MountInfo.zero with Dir := "/home/user".toList },
         { MountInfo.zero with Dir := "/".toList }]
      = some { MountInfo.zero with Dir := "/home".toList } :=
  ⟨by decide,
   (resolve_plain_string_matching { MountInfo.zero with Dir := "/".toList }
      { MountInfo.zero with Dir := "/home".toList }
      { MountInfo.zero with Dir := "/home/user".toList } _ rfl rfl rfl
      (by decide)).1,
   (resolve_plain_string_matching { MountInfo.zero with Dir := "/".toList }
      { MountInfo.zero with Dir := "/home".toList }
      { MountInfo.zero with Dir := "/home/user".toList } _ rfl rfl rfl
      (by decide)).2.1⟩

/-! ## Lemmas on the statistics object -/

theorem toU64_of_nonneg (f : Int) (h0 : 0 ≤ f) (h1 : f < 2 ^ 64) : toU64 f = f.toNat := by
  unfold toU64
  rw [Int.emod_eq_of_lt h0 h1]

theorem int64And_MS_RDONLY (x : Int) : int64And x MS_RDONLY = x % 2 := by
  have h1 : toU64 MS_RDONLY = 1 := by decide
  unfold int64And
  rw [h1, Nat.and_one_is_mod]
  unfold toI64 toU64
  have h2 : (x % 2 ^ 64).toNat % 2 % 2 ^ 64 = (x % 2 ^ 64).toNat % 2 := by omega
  rw [h2]
  have h3 : (x % 2 ^ 64).toNat % 2 < 2 ^ 63 := by omega
  rw [if_pos h3]
  omega

/-- The three exported entry points all end in `update`, on an object whose `path` is
the path queried. -/
theorem NewFSstat_eq_SetPath (env : Env) (fs : FSstat) (p : GoString) :
    NewFSstat env p = fs.SetPath env [] := rfl

theorem update_statfs_error (env : Env) (fs : FSstat) (err : GoError)
    (h : env.statfs fs.path = .error err) : fs.update env = (fs, some err) := by
  simp [FSstat.update, FSstat.setPath, h]

theorem update_statfs_ok (env : Env) (fs : FSstat) (buf : Statfs_t)
    (h : env.statfs fs.path = .ok buf) :
    (fs.update env).1.capacity = mulU64 buf.Blocks (toU64 buf.Frsize) ∧
      (fs.update env).1.free = mulU64 buf.Bfree (toU64 buf.Frsize) ∧
      (fs.update env).1.available = mulU64 buf.Bavail (toU64 buf.Frsize) ∧
      (fs.update env).1.fstype = buf.Type_ ∧
      (fs.update env).1.flags = buf.Flags ∧
      (fs.update env).1.path = fs.path := by
  unfold FSstat.update FSstat.setPath FSstat.initMountInfo
  simp only [h]
  cases newMountInfoParser env <;> simp

/-- The result `r` of one of the three exported entry points, together with the path
`q` whose statistics that call queries. -/
theorem entry_point_is_update (env : Env) (fs : FSstat) (p q : GoString)
    (r : FSstat × Option GoError)
    (hr : (r = fs.Update env ∧ q = fs.path) ∨ r = fs.SetPath env q ∨
      (r = NewFSstat env p ∧ q = [])) :
    ∃ fs0 : FSstat, r = fs0.update env ∧ fs0.path = q := by
  rcases hr with ⟨h1, h2⟩ | h | ⟨h1, h2⟩
  · exact ⟨fs, h1, h2.symm⟩
  · exact ⟨{ fs.invalidate with path := q }, h, rfl⟩
  · exact ⟨FSstat.zero.invalidate, h1, h2.symm⟩

/-! ## Claims on the statistics object -/

/-- C4 (code defect): `NewFSstat` never reads its `path` argument; it queries the
empty path.  Where only `/` can be queried, `NewFSstat("/")` returns `ENOENT` and an
object whose `Type()` is 0, whereas `SetPath("/")` on a freshly invalidated object
returns no error and the reported type code. -/
theorem NewFSstat_ignores_path :
    NewFSstat rootOnlyEnv "/".toList = (FSstat.zero.invalidate, some (.errno 2)) ∧
      (NewFSstat rootOnlyEnv "/".toList).1.Type_ = 0 ∧
      (FSstat.zero.invalidate.SetPath rootOnlyEnv "/".toList).2 = none ∧
      (FSstat.zero.invalidate.SetPath rootOnlyEnv "/".toList).1.Type_ = 0xEF53 ∧
      ∀ (env : Env) (p : GoString), NewFSstat env p = NewFSstat env [] := by
  refine ⟨by decide, by decide, by decide, by decide, fun _ _ => rfl⟩

/-- C5, as stated, fails in three ways: a failed `Update()` keeps the previous byte
counts; a failed `SetPath(p)` leaves the path `p`, not the empty path; and when the
mount table cannot be opened the byte counts of the query stay in place. -/
theorem failed_update_not_sentinel :
    ((dataFs.Update rootOnlyEnv).2 = some (.errno 2) ∧
        (dataFs.Update rootOnlyEnv).1.BytesCapacity = 4096000 ∧
        (dataFs.Update rootOnlyEnv).1.BytesCapacity ≠ 2 ^ 64 - 1) ∧
      ((dataFs.SetPath rootOnlyEnv "/nope".toList).2 = some (.errno 2) ∧
        (dataFs.SetPath rootOnlyEnv "/nope".toList).1.path ≠ []) ∧
      ((dataFs.SetPath noTableEnv "/".toList).2 = some .openFailed ∧
        (dataFs.SetPath noTableEnv "/".toList).1.BytesCapacity ≠ 2 ^ 64 - 1) := by
  decide

/-- C5, amended: whenever `SetPath(q)` returns a non-nil error, from any prior state,
the mount entry is absent afterwards, the path is `q`, and the object is the one any
other prior state would have given (no field of the earlier binding remains); when
the error is that of the statistics query, `BytesCapacity()`, `BytesFree()` and
`BytesAvailable()` equal `2 ^ 64 - 1` and flags and type are 0. -/
theorem failed_rebind_sentinel (env : Env) (fs : FSstat) (q : GoString)
    (hfail : (fs.SetPath env q).2 ≠ none) :
    (fs.SetPath env q).1.mountInfo = none ∧ (fs.SetPath env q).1.path = q ∧
      (∀ fs' : FSstat, fs'.SetPath env q = fs.SetPath env q) ∧
      ∀ err, env.statfs q = .error err →
        (fs.SetPath env q).2 = some err ∧
          (fs.SetPath env q).1.BytesCapacity = 2 ^ 64 - 1 ∧
          (fs.SetPath env q).1.BytesFree = 2 ^ 64 - 1 ∧
          (fs.SetPath env q).1.BytesAvailable = 2 ^ 64 - 1 ∧
          (fs.SetPath env q).1.flags = 0 ∧ (fs.SetPath env q).1.Type_ = 0 := by
  have hrest : (fs.SetPath env q).1.mountInfo = none ∧ (fs.SetPath env q).1.path = q ∧
      ∀ err, env.statfs q = .error err →
        (fs.SetPath env q).2 = some err ∧
          (fs.SetPath env q).1.BytesCapacity = 2 ^ 64 - 1 ∧
          (fs.SetPath env q).1.BytesFree = 2 ^ 64 - 1 ∧
          (fs.SetPath env q).1.BytesAvailable = 2 ^ 64 - 1 ∧
          (fs.SetPath env q).1.flags = 0 ∧ (fs.SetPath env q).1.Type_ = 0 := by
    revert hfail
    unfold FSstat.SetPath FSstat.update FSstat.setPath FSstat.initMountInfo
    simp only [FSstat.invalidate]
    cases hs : env.statfs q with
    | error e =>
      intro _
      refine ⟨rfl, rfl, ?_⟩
      intro err herr
      cases herr
      exact ⟨rfl, rfl, rfl, rfl, rfl, rfl⟩
    | ok buf =>
      cases hp : newMountInfoParser env with
      | error e =>
        intro _
        refine ⟨rfl, rfl, ?_⟩
        intro err herr
        cases herr
      | ok parser =>
        intro hfail
        exact absurd rfl hfail
  exact ⟨hrest.1, hrest.2.1, fun _ => rfl, hrest.2.2⟩

/-- Witness of C5 (amended): `SetPath("/nope")` on a populated object where only `/`
can be queried. -/
theorem failed_rebind_sentinel_witness :
    (dataFs.SetPath rootOnlyEnv "/nope".toList).2 ≠ none ∧
      (dataFs.SetPath rootOnlyEnv "/nope".toList).1.mountInfo = none ∧
      (dataFs.SetPath rootOnlyEnv "/nope".toList).1.path = "/nope".toList ∧
      (dataFs.SetPath rootOnlyEnv "/nope".toList).1.BytesCapacity = 2 ^ 64 - 1 ∧
      (dataFs.SetPath rootOnlyEnv "/nope".toList).1.flags = 0 :=
  have h := failed_rebind_sentinel rootOnlyEnv dataFs "/nope".toList (by decide)
  have h2 := h.2.2.2 (.errno 2) rfl
  ⟨by decide, h.1, h.2.1, h2.2.1, h2.2.2.2.2.1⟩

/-- C6: let `r` be the result of `Update()`, `SetPath(q)` or `NewFSstat`, `q` the
path the call queries, and let the statistics query for `q` succeed with `buf`.  Then
`BytesCapacity()`, `BytesFree()` and `BytesAvailable()` are the products of the block
counts with `uint64(buf.Frsize)` reduced modulo `2 ^ 64`, `Type()` and the flags are
those of `buf`, and for a non-negative fragment size each byte count whose
mathematical product is below `2 ^ 64` is that product. -/
theorem bytes_are_blocks_times_frsize (env : Env) (fs : FSstat) (p q : GoString)
    (r : FSstat × Option GoError) (buf : Statfs_t)
    (hr : (r = fs.Update env ∧ q = fs.path) ∨ r = fs.SetPath env q ∨
      (r = NewFSstat env p ∧ q = []))
    (h : env.statfs q = .ok buf) :
    r.1.BytesCapacity = (buf.Blocks * toU64 buf.Frsize) % 2 ^ 64 ∧
      r.1.BytesFree = (buf.Bfree * toU64 buf.Frsize) % 2 ^ 64 ∧
      r.1.BytesAvailable = (buf.Bavail * toU64 buf.Frsize) % 2 ^ 64 ∧
      r.1.Type_ = buf.Type_ ∧ r.1.flags = buf.Flags ∧
      (0 ≤ buf.Frsize →
        (buf.Blocks * buf.Frsize.toNat < 2 ^ 64 →
          r.1.BytesCapacity = buf.Blocks * buf.Frsize.toNat) ∧
        (buf.Bfree * buf.Frsize.toNat < 2 ^ 64 →
          r.1.BytesFree = buf.Bfree * buf.Frsize.toNat) ∧
        (buf.Bavail * buf.Frsize.toNat < 2 ^ 64 →
          r.1.BytesAvailable = buf.Bavail * buf.Frsize.toNat)) := by
  obtain ⟨fs0, hr0, hq⟩ := entry_point_is_update env fs p q r hr
  subst hr0
  rw [← hq] at h
  obtain ⟨h1, h2, h3, h4, h5, _⟩ := update_statfs_ok env fs0 buf h
  have key : ∀ b : Nat, 0 ≤ buf.Frsize → b * buf.Frsize.toNat < 2 ^ 64 →
      mulU64 b (toU64 buf.Frsize) = b * buf.Frsize.toNat := by
    intro b h0 hlt
    unfold mulU64
    rcases Nat.eq_zero_or_pos b with hb | hb
    · subst hb; simp
    · have hf : buf.Frsize.toNat < 2 ^ 64 :=
        lt_of_le_of_lt (Nat.le_mul_of_pos_left _ hb) hlt
      rw [toU64_of_nonneg buf.Frsize h0 (by omega)]
      exact Nat.mod_eq_of_lt hlt
  refine ⟨h1, h2, h3, h4, h5, ?_⟩
  intro h0
  refine ⟨fun hlt => ?_, fun hlt => ?_, fun hlt => ?_⟩
  · exact h1.trans (key _ h0 hlt)
  · exact h2.trans (key _ h0 hlt)
  · exact h3.trans (key _ h0 hlt)

/-- Witness of C6: `SetPath("/")` where `/` reports 1000 blocks of 4096 bytes, 400
free and 300 available. -/
theorem bytes_are_blocks_times_frsize_witness :
    rootOnlyEnv.statfs "/".toList = .ok ext4Buf ∧
      (dataFs.SetPath rootOnlyEnv "/".toList).1.BytesCapacity = 1000 * 4096 ∧
      (dataFs.SetPath rootOnlyEnv "/".toList).1.BytesFree = 400 * 4096 ∧
      (dataFs.SetPath rootOnlyEnv "/".toList).1.BytesAvailable = 300 * 4096 ∧
      (dataFs.SetPath rootOnlyEnv "/".toList).1.Type_ = 0xEF53 :=
  have h := bytes_are_blocks_times_frsize rootOnlyEnv dataFs [] "/".toList
    (dataFs.SetPath rootOnlyEnv "/".toList) ext4Buf (Or.inr (Or.inl rfl)) rfl
  have h0 := h.2.2.2.2.2 (by decide)
  ⟨rfl, h0.1 (by decide), h0.2.1 (by decide), h0.2.2 (by decide), h.2.2.2.1⟩

/-- C7, as stated, fails: with `2 ^ 63` free blocks, one available block and fragment
size 2 the free-byte product wraps to 0 while the available bytes are 2. -/
theorem bytes_free_wraps_below_available :
    wrapBuf.Bavail ≤ wrapBuf.Bfree ∧ wrapBuf.Bfree < 2 ^ 64 ∧
      wrapEnv.statfs "/".toList = .ok wrapBuf ∧
      (FSstat.zero.SetPath wrapEnv "/".toList).2 = none ∧
      (FSstat.zero.SetPath wrapEnv "/".toList).1.BytesFree = 0 ∧
      (FSstat.zero.SetPath wrapEnv "/".toList).1.BytesAvailable = 2 ∧
      ¬ ((FSstat.zero.SetPath wrapEnv "/".toList).1.BytesFree ≥
        (FSstat.zero.SetPath wrapEnv "/".toList).1.BytesAvailable) := by
  refine ⟨by decide, by decide, rfl, by decide, by decide, by decide, by decide⟩

/-- C7, amended: for every successful statistics query whose free block count is at
least its available block count and whose free-byte product
`Bfree * uint64(Frsize)` does not exceed 64 bits, `BytesFree() >= BytesAvailable()`
holds on the resulting object. -/
theorem bytes_free_ge_available (env : Env) (fs : FSstat) (p q : GoString)
    (r : FSstat × Option GoError) (buf : Statfs_t)
    (hr : (r = fs.Update env ∧ q = fs.path) ∨ r = fs.SetPath env q ∨
      (r = NewFSstat env p ∧ q = []))
    (h : env.statfs q = .ok buf) (hle : buf.Bavail ≤ buf.Bfree)
    (hfit : buf.Bfree * toU64 buf.Frsize < 2 ^ 64) :
    r.1.BytesFree ≥ r.1.BytesAvailable := by
  obtain ⟨fs0, hr0, hq⟩ := entry_point_is_update env fs p q r hr
  subst hr0
  rw [← hq] at h
  obtain ⟨_, h2, h3, _⟩ := update_statfs_ok env fs0 buf h
  have hmul : buf.Bavail * toU64 buf.Frsize ≤ buf.Bfree * toU64 buf.Frsize :=
    Nat.mul_le_mul_right _ hle
  show (fs0.update env).1.available ≤ (fs0.update env).1.free
  rw [h2, h3]
  unfold mulU64
  rw [Nat.mod_eq_of_lt hfit, Nat.mod_eq_of_lt (lt_of_le_of_lt hmul hfit)]
  exact hmul

/-- Witness of C7 (amended): `Update()` on an object bound to `/data` where every path
reports 400 free and 300 available blocks of 4096 bytes. -/
theorem bytes_free_ge_available_witness :
    ext4Buf.Bavail ≤ ext4Buf.Bfree ∧ ext4Buf.Bfree * toU64 ext4Buf.Frsize < 2 ^ 64 ∧
      (dataFs.Update noTableEnv).1.BytesFree ≥ (dataFs.Update noTableEnv).1.BytesAvailable :=
  ⟨by decide, by decide,
   bytes_free_ge_available noTableEnv dataFs [] "/data".toList (dataFs.Update noTableEnv)
     ext4Buf (Or.inl ⟨rfl, rfl⟩) rfl (by decide) (by decide)⟩

/-- C8: `IsReadOnly()` is true exactly when `flags & MS_RDONLY` is non-zero, which is
exactly when the lowest bit of the two's-complement flags is set (`flags` odd), for
every integer `flags`, negative ones included; on an invalidated object it is false. -/
theorem isReadOnly_iff (fs : FSstat) :
    (fs.IsReadOnly = true ↔ int64And fs.flags MS_RDONLY ≠ 0) ∧
      (fs.IsReadOnly = true ↔ fs.flags % 2 = 1) ∧
      MS_RDONLY = 1 ∧ fs.invalidate.IsReadOnly = false := by
  refine ⟨?_, ?_, rfl, ?_⟩
  · unfold FSstat.IsReadOnly
    rw [decide_eq_true_eq, int64And_MS_RDONLY]
    omega
  · unfold FSstat.IsReadOnly
    rw [decide_eq_true_eq, int64And_MS_RDONLY]
  · simp [FSstat.IsReadOnly, FSstat.invalidate, int64And_MS_RDONLY]

/-! ## Lemmas on the parser -/

theorem Split_ne_nil (s : GoString) (sep : Char) : Split s sep ≠ [] := by
  cases s with
  | nil => simp [Split]
  | cons c cs =>
    unfold Split
    split
    · simp
    · split <;> simp

theorem Split_cons_ne (c sep : Char) (cs w : GoString) (ws : List GoString) (h : c ≠ sep)
    (hs : Split cs sep = w :: ws) : Split (c :: cs) sep = (c :: w) :: ws := by
  rw [Split, if_neg h, hs]

theorem Split_cons_eq (sep : Char) (cs : GoString) :
    Split (sep :: cs) sep = [] :: Split cs sep := by
  rw [Split, if_pos rfl]

/-- On a piece without separator followed by a separator, `Split` cuts there. -/
theorem Split_append_sep (l rest : GoString) (sep : Char) (h : sep ∉ l) :
    Split (l ++ sep :: rest) sep = l :: Split rest sep := by
  induction l with
  | nil => exact Split_cons_eq sep rest
  | cons c cs ih =>
    have hc : c ≠ sep := fun hc => h (by simp [hc])
    have hcs : sep ∉ cs := fun hcs => h (by simp [hcs])
    exact Split_cons_ne c sep _ _ _ hc (ih hcs)

/-- Appending a byte that is not the separator does not change the number of pieces. -/
theorem Split_length_append (l : GoString) (c sep : Char) (h : c ≠ sep) :
    (Split (l ++ [c]) sep).length = (Split l sep).length := by
  induction l with
  | nil => simp [Split, h]
  | cons x xs ih =>
    by_cases hx : x = sep
    · subst hx
      simp only [List.cons_append]
      rw [Split_cons_eq, Split_cons_eq, List.length_cons, List.length_cons, ih]
    · obtain ⟨w, ws, hw⟩ := List.exists_cons_of_ne_nil (Split_ne_nil xs sep)
      obtain ⟨w', ws', hw'⟩ := List.exists_cons_of_ne_nil (Split_ne_nil (xs ++ [c]) sep)
      simp only [List.cons_append]
      rw [Split_cons_ne x sep _ _ _ hx hw, Split_cons_ne x sep _ _ _ hx hw']
      rw [hw, hw'] at ih
      simpa using ih

/-- What `ReadString` returns, in terms of the pieces between newlines. -/
theorem ReadString_spec (delim : Char) (content : GoString) :
    match ReadString delim content with
    | none => Split content delim = [content]
    | some (line, rest) =>
      ∃ l, line = l ++ [delim] ∧ Split content delim = l :: Split rest delim ∧
        rest.length < content.length := by
  induction content with
  | nil => simp [ReadString, Split]
  | cons c cs ih =>
    by_cases hc : c = delim
    · subst hc
      simp only [ReadString, if_true]
      exact ⟨[], rfl, Split_cons_eq c cs, by simp⟩
    · simp only [ReadString, if_neg hc]
      cases hr : ReadString delim cs with
      | none =>
        rw [hr] at ih
        simp only at ih ⊢
        exact Split_cons_ne c delim cs cs [] hc ih
      | some lr =>
        obtain ⟨line, rest⟩ := lr
        rw [hr] at ih
        simp only at ih ⊢
        obtain ⟨l, h1, h2, h3⟩ := ih
        refine ⟨c :: l, by simp [h1], Split_cons_ne c delim cs _ _ hc h2, ?_⟩
        simp only [List.length_cons]
        omega

theorem dropLast_cons_Split (l rest : GoString) (sep : Char) :
    (l :: Split rest sep).dropLast = l :: (Split rest sep).dropLast := by
  obtain ⟨w, ws, hw⟩ := List.exists_cons_of_ne_nil (Split_ne_nil rest sep)
  rw [hw]
  rfl

theorem completeLines_append (l rest : GoString) (h : '\n' ∉ l) :
    completeLines (l ++ '\n' :: rest) = l :: completeLines rest := by
  unfold completeLines
  rw [Split_append_sep l rest '\n' h, dropLast_cons_Split]

theorem completeLines_joinLines (good : List GoString) (rest : GoString)
    (h : ∀ l ∈ good, '\n' ∉ l) :
    completeLines (joinLines good ++ rest) = good ++ completeLines rest := by
  induction good with
  | nil => rfl
  | cons l ls ih =>
    have hl : '\n' ∉ l := h l (by simp)
    have hls : ∀ l' ∈ ls, '\n' ∉ l' := fun l' hl' => h l' (by simp [hl'])
    simp only [joinLines, List.append_assoc, List.cons_append]
    rw [completeLines_append l _ hl, ih hls]

theorem untilNone_append_none {α : Type} (xs ys : List (Option α)) :
    untilNone (xs ++ none :: ys) = untilNone xs := by
  induction xs with
  | nil => rfl
  | cons x xs ih =>
    cases x with
    | none => rfl
    | some a => simp [untilNone, ih]

theorem next_reader_none (parseInt : GoString → Int) (content : GoString)
    (h : ReadString '\n' content = none) :
    (mountInfoParser.reader content).next parseInt = (none, .reader []) := by
  simp [mountInfoParser.next, h]

theorem next_reader_some (parseInt : GoString → Int) (content line rest : GoString)
    (h : ReadString '\n' content = some (line, rest)) :
    (mountInfoParser.reader content).next parseInt =
      (nextLine parseInt line, .reader rest) := by
  simp [mountInfoParser.next, h]

/-- On the reader over `/proc/self/mountinfo`, the loop of `MountInfoList` appends the
entries of the complete lines up to the first line `next` rejects. -/
theorem MountInfoList.loop_reader (parseInt : GoString → Int) (fuel : Nat) :
    ∀ (content : GoString) (res : List MountInfo), content.length < fuel →
      MountInfoList.loop parseInt fuel (.reader content) res =
        res ++ untilNone ((completeLines content).map
          (fun l => nextLine parseInt (l ++ ['\n']))) := by
  induction fuel with
  | zero => intro content res h; omega
  | succ fuel ih =>
    intro content res h
    have hs := ReadString_spec '\n' content
    rw [MountInfoList.loop]
    cases hr : ReadString '\n' content with
    | none =>
      rw [hr] at hs
      simp only at hs
      rw [next_reader_none parseInt content hr]
      simp [completeLines, hs, untilNone]
    | some lr =>
      obtain ⟨line, rest⟩ := lr
      rw [hr] at hs
      simp only at hs
      obtain ⟨l, h1, h2, h3⟩ := hs
      have hcl : completeLines content = l :: completeLines rest := by
        unfold completeLines
        rw [h2, dropLast_cons_Split]
      rw [next_reader_some parseInt content line rest hr, hcl, List.map_cons, ← h1]
      cases hn : nextLine parseInt line with
      | none => simp [untilNone]
      | some mi =>
        simp only [untilNone]
        rw [ih rest (res ++ [mi]) (by omega)]
        simp

theorem next_size (parseInt : GoString → Int) (p p' : mountInfoParser) (mi : MountInfo)
    (h : p.next parseInt = (some mi, p')) : p'.size < p.size := by
  cases p with
  | fp records =>
    cases records with
    | nil => simp [mountInfoParser.next] at h
    | cons mnt rest =>
      simp only [mountInfoParser.next, Prod.mk.injEq] at h
      rw [← h.2]
      simp [mountInfoParser.size]
  | reader content =>
    have hs := ReadString_spec '\n' content
    cases hr : ReadString '\n' content with
    | none =>
      rw [next_reader_none parseInt content hr] at h
      simp at h
    | some lr =>
      obtain ⟨line, rest⟩ := lr
      rw [hr] at hs
      simp only at hs
      obtain ⟨l, _, _, h3⟩ := hs
      rw [next_reader_some parseInt content line rest hr] at h
      simp only [Prod.mk.injEq] at h
      rw [← h.2]
      simpa [mountInfoParser.size] using h3

/-- The loop of `MountInfoList` never exhausts a fuel above the size of the parser:
any two such fuels give the same result. -/
theorem MountInfoList.loop_fuel (parseInt : GoString → Int) (fuel1 : Nat) :
    ∀ (fuel2 : Nat) (p : mountInfoParser) (res : List MountInfo),
      p.size < fuel1 → p.size < fuel2 →
      MountInfoList.loop parseInt fuel1 p res = MountInfoList.loop parseInt fuel2 p res := by
  induction fuel1 with
  | zero => intro fuel2 p res h; omega
  | succ fuel1 ih =>
    intro fuel2 p res h1 h2
    cases fuel2 with
    | zero => omega
    | succ fuel2 =>
      rw [MountInfoList.loop, MountInfoList.loop]
      cases hn : p.next parseInt with
      | mk o p' =>
        cases o with
        | none => rfl
        | some mi =>
          have := next_size parseInt p p' mi hn
          exact ih fuel2 p' _ (by omega) (by omega)

theorem MountInfoList.loop_acc (parseInt : GoString → Int) (fuel : Nat) :
    ∀ (p : mountInfoParser) (res : List MountInfo),
      MountInfoList.loop parseInt fuel p res = res ++ MountInfoList.loop parseInt fuel p [] := by
  induction fuel with
  | zero => intro p res; simp [MountInfoList.loop]
  | succ fuel ih =>
    intro p res
    rw [MountInfoList.loop, MountInfoList.loop]
    cases hn : p.next parseInt with
    | mk o p' =>
      cases o with
      | none => simp
      | some mi =>
        simp only
        rw [ih p' (res ++ [mi]), ih p' ([] ++ [mi])]
        simp

/-- The loop of `initMountInfo` is the loop body folded over the entries that the loop
of `MountInfoList` collects from the same parser. -/
theorem initMountInfo.loop_eq_foldl (parseInt : GoString → Int) (path : GoString)
    (fuel : Nat) :
    ∀ (p : mountInfoParser) (st : Nat × Option MountInfo),
      initMountInfo.loop parseInt path fuel p st =
        (MountInfoList.loop parseInt fuel p []).foldl (selectStep path) st := by
  induction fuel with
  | zero => intro p st; simp [initMountInfo.loop, MountInfoList.loop]
  | succ fuel ih =>
    intro p st
    rw [initMountInfo.loop, MountInfoList.loop]
    cases hn : p.next parseInt with
    | mk o p' =>
      cases o with
      | none => simp
      | some mi =>
        simp only
        rw [ih p' _, MountInfoList.loop_acc parseInt fuel p' ([] ++ [mi])]
        simp

/-- Method `initMountInfo` resolves the path over the table `MountInfoList` returns. -/
theorem initMountInfo_eq_resolveFrom (env : Env) (fs : FSstat) (path : GoString)
    (entries : List MountInfo) (h : MountInfoList env = .ok entries) :
    fs.initMountInfo env path =
      ({ fs with mountInfo := resolveFrom path fs.mountInfo entries }, none) := by
  unfold MountInfoList at h
  unfold FSstat.initMountInfo resolveFrom
  cases hp : newMountInfoParser env with
  | error e => rw [hp] at h; cases h
  | ok parser =>
    rw [hp] at h
    simp only [Except.ok.injEq] at h
    simp only
    rw [initMountInfo.loop_eq_foldl, h]

/-! ## Claims on the parser -/

/-- On a primary source `content`, `MountInfoList` returns, in file order, the entries
`next` parses from the complete lines that precede the first line it rejects; a line
of fewer than 11 pieces between single spaces is rejected. -/
theorem MountInfoList_primary (env : Env) (content : GoString)
    (h : env.procMountinfo = some content) :
    MountInfoList env = .ok (untilNone ((completeLines content).map
        (fun l => nextLine env.parseInt (l ++ ['\n'])))) ∧
      ∀ (good : List GoString) (bad rest : GoString),
        (∀ l ∈ good, '\n' ∉ l) → '\n' ∉ bad → (Split bad ' ').length < 11 →
        content = joinLines good ++ (bad ++ '\n' :: rest) →
        nextLine env.parseInt (bad ++ ['\n']) = none ∧
          MountInfoList env = .ok (untilNone (good.map
            (fun l => nextLine env.parseInt (l ++ ['\n'])))) := by
  have hmain : MountInfoList env = .ok (untilNone ((completeLines content).map
      (fun l => nextLine env.parseInt (l ++ ['\n'])))) := by
    unfold MountInfoList newMountInfoParser
    simp only [h, mountInfoParser.size]
    rw [MountInfoList.loop_reader env.parseInt _ content [] (by omega)]
    simp
  refine ⟨hmain, ?_⟩
  intro good bad rest hgood hbad hshort hcontent
  have hnone : nextLine env.parseInt (bad ++ ['\n']) = none := by
    unfold nextLine
    simp only [Split_length_append bad '\n' ' ' (by decide), hshort, if_true]
  refine ⟨hnone, ?_⟩
  rw [hmain, hcontent, completeLines_joinLines good _ hgood,
    completeLines_append bad rest hbad, List.map_append, List.map_cons, hnone,
    untilNone_append_none]

/-- C10 (code defect): `next` reads the filesystem type, the mount source and the
super-block options at the fixed positions 8, 9 and 10, which is right for exactly one
optional field.  The record without optional field has 10 fields and yields no entry
(`MountInfoList` returns the empty list); on the record with two optional fields the
entry has the separator `-` as its type, the filesystem type as its name and super
options decoded from the mount source; the record with one optional field is read as
documented. -/
theorem nextLine_assumes_one_optional_field :
    nextLine (fun _ => 0) (lineNoOptional ++ ['\n']) = none ∧
      MountInfoList noOptionalEnv = .ok [] ∧
      (nextLine (fun _ => 0) (lineTwoOptional ++ ['\n'])).map
          (fun m => (m.Type_, m.Name, m.SuperOptions)) =
        some ("-".toList, "ext3".toList, [{ Name := "/dev/root".toList, Value := [] }]) ∧
      (nextLine (fun _ => 0) (lineOneOptional ++ ['\n'])).map
          (fun m => (m.Type_, m.Name, m.SuperOptions)) =
        some ("ext3".toList, "/dev/root".toList,
          [{ Name := "rw".toList, Value := [] },
           { Name := "errors".toList, Value := "continue".toList }]) := by
  refine ⟨by decide, by rfl, by decide, by decide⟩

/-! ## Lemmas on `Split` -/

theorem Split_length (s : GoString) (sep : Char) :
    (Split s sep).length = s.count sep + 1 := by
  induction s with
  | nil => simp [Split]
  | cons c cs ih =>
    by_cases hc : c = sep
    · subst hc
      rw [Split_cons_eq, List.length_cons, ih, List.count_cons_self]
    · obtain ⟨w, ws, hw⟩ := List.exists_cons_of_ne_nil (Split_ne_nil cs sep)
      rw [Split_cons_ne c sep cs w ws hc hw, List.count_cons_of_ne (Ne.symm hc), ← ih, hw]
      rfl

theorem Split_length_ge_two_iff (s : GoString) (sep : Char) :
    2 ≤ (Split s sep).length ↔ sep ∈ s := by
  rw [Split_length, ← List.count_pos_iff]
  omega

/-- Appending a byte that is not the separator leaves every piece but the last as it
is. -/
theorem Split_append_idx (l : GoString) (c sep : Char) (h : c ≠ sep) (i : Nat)
    (hi : i + 1 < (Split l sep).length) :
    idx (Split (l ++ [c]) sep) i = idx (Split l sep) i := by
  induction l generalizing i with
  | nil => simp [Split] at hi
  | cons x xs ih =>
    by_cases hx : x = sep
    · subst hx
      simp only [List.cons_append]
      rw [Split_cons_eq, Split_cons_eq] at *
      cases i with
      | zero => rfl
      | succ i =>
        simp only [List.length_cons] at hi
        exact ih i (by omega)
    · obtain ⟨w, ws, hw⟩ := List.exists_cons_of_ne_nil (Split_ne_nil xs sep)
      obtain ⟨w', ws', hw'⟩ := List.exists_cons_of_ne_nil (Split_ne_nil (xs ++ [c]) sep)
      simp only [List.cons_append]
      rw [Split_cons_ne x sep _ _ _ hx hw] at hi ⊢
      rw [Split_cons_ne x sep _ _ _ hx hw']
      rw [hw, hw'] at ih
      cases i with
      | zero =>
        have := ih 0 (by simpa using hi)
        simp only [idx, List.getD_cons_zero] at this ⊢
        rw [this]
      | succ i =>
        have := ih (i + 1) (by simpa using hi)
        simpa [idx] using this

/-! ## Acceptance of a line by `next` -/

theorem nextLine_eq_none_iff (parseInt : GoString → Int) (line : GoString) :
    nextLine parseInt line = none ↔
      (Split line ' ').length < 11 ∨ (Split (idx (Split line ' ') 2) ':').length < 2 := by
  unfold nextLine
  by_cases h1 : (Split line ' ').length < 11
  · simp [h1]
  · by_cases h2 : (Split (idx (Split line ' ') 2) ':').length < 2
    · simp [h1, h2]
    · simp [h1, h2]

theorem nextLine_isSome_iff (parseInt : GoString → Int) (line : GoString) :
    (nextLine parseInt line).isSome = true ↔
      11 ≤ (Split line ' ').length ∧ ':' ∈ idx (Split line ' ') 2 := by
  rw [← Split_length_ge_two_iff, Option.isSome_iff_ne_none, Ne, nextLine_eq_none_iff]
  omega

theorem nextLine_fields (parseInt : GoString → Int) (line : GoString) (mi : MountInfo)
    (h : nextLine parseInt line = some mi) :
    mi.MountID = parseInt (idx (Split line ' ') 0) ∧
      mi.ParentID = parseInt (idx (Split line ' ') 1) ∧
      mi.Major = parseInt (idx (Split (idx (Split line ' ') 2) ':') 0) ∧
      mi.Minor = parseInt (idx (Split (idx (Split line ' ') 2) ':') 1) ∧
      mi.SuperOptions =
        (Split (TrimRight (idx (Split line ' ') 10) ['\n']) ',').map superOption := by
  unfold nextLine at h
  by_cases h1 : (Split line ' ').length < 11
  · simp [h1] at h
  · by_cases h2 : (Split (idx (Split line ' ') 2) ':').length < 2
    · simp [h1, h2] at h
    · simp only [h1, h2, if_false, Option.some.injEq] at h
      subst h
      exact ⟨rfl, rfl, rfl, rfl, rfl⟩

/-! ## Claims on the validation of a record -/

/-- C11 (code defect): the four tests `if parseInt(...); err != nil` of `next` test the
`nil` error of `ReadString`, not the outcome of `parseInt`, so no integer field is ever
validated.  The record `lineBadInts` has 11 fields and none of its mount ID, parent ID,
major and minor is an integer, yet `next` yields an entry for it, whatever `parseInt`
does; acceptance of a line never depends on `parseInt`. -/
theorem nextLine_ignores_integer_syntax :
    (Split (lineBadInts ++ ['\n']) ' ').length = 11 ∧
      isIntegerString (idx (Split (lineBadInts ++ ['\n']) ' ') 0) = false ∧
      isIntegerString (idx (Split (lineBadInts ++ ['\n']) ' ') 1) = false ∧
      isIntegerString (idx (Split (idx (Split (lineBadInts ++ ['\n']) ' ') 2) ':') 0) = false ∧
      isIntegerString (idx (Split (idx (Split (lineBadInts ++ ['\n']) ' ') 2) ':') 1) = false ∧
      (∀ parseInt : GoString → Int,
        (nextLine parseInt (lineBadInts ++ ['\n'])).isSome = true ∧
        ((mountInfoParser.reader (lineBadInts ++ ['\n'])).next parseInt).1.isSome = true) ∧
      ∀ (parseInt parseInt' : GoString → Int) (line : GoString),
        (nextLine parseInt line).isSome = (nextLine parseInt' line).isSome := by
  refine ⟨by decide, by decide, by decide, by decide, by decide, ?_, ?_⟩
  · intro parseInt
    have h : (nextLine parseInt (lineBadInts ++ ['\n'])).isSome = true :=
      (nextLine_isSome_iff parseInt _).2 ⟨by decide, by decide⟩
    refine ⟨h, ?_⟩
    rw [next_reader_some parseInt (lineBadInts ++ ['\n']) (lineBadInts ++ ['\n']) [] (by decide)]
    exact h
  · intro parseInt parseInt' line
    rw [Bool.eq_iff_iff, nextLine_isSome_iff, nextLine_isSome_iff]

/-- C12, as stated, fails: the record `lineThreeComponents` has 11 fields and the
third field `8:1:2`, of three colon-separated components, and `next` yields an entry
for it. -/
theorem nextLine_accepts_three_components :
    (Split (lineThreeComponents ++ ['\n']) ' ').length = 11 ∧
      Split (idx (Split (lineThreeComponents ++ ['\n']) ' ') 2) ':' =
        ["8".toList, "1".toList, "2".toList] ∧
      (nextLine (fun _ => 0) (lineThreeComponents ++ ['\n'])).isSome = true := by
  decide

/-- C12, amended: for every primary-format line with at least 11 fields, if the third
field has fewer than two colon-separated components, that is if it contains no `:`
(for example `8`), `next` yields no entry; an entry that is yielded comes from a third
field of at least two components and has its major and minor read from the first two;
and components beyond the second do not cause rejection: when the mount ID, the parent
ID and the first two components are integers, a third field of two or more components
(for example `8:1:2`) yields an entry. -/
theorem nextLine_majorMinor_guard (parseInt : GoString → Int) (line : GoString)
    (h : 11 ≤ (Split line ' ').length) :
    ((Split (idx (Split line ' ') 2) ':').length < 2 → nextLine parseInt line = none) ∧
      ((Split (idx (Split line ' ') 2) ':').length < 2 ↔ ':' ∉ idx (Split line ' ') 2) ∧
      (∀ mi, nextLine parseInt line = some mi →
        2 ≤ (Split (idx (Split line ' ') 2) ':').length ∧
          mi.Major = parseInt (idx (Split (idx (Split line ' ') 2) ':') 0) ∧
          mi.Minor = parseInt (idx (Split (idx (Split line ' ') 2) ':') 1)) ∧
      (isIntegerString (idx (Split line ' ') 0) = true →
        isIntegerString (idx (Split line ' ') 1) = true →
        isIntegerString (idx (Split (idx (Split line ' ') 2) ':') 0) = true →
        isIntegerString (idx (Split (idx (Split line ' ') 2) ':') 1) = true →
        2 ≤ (Split (idx (Split line ' ') 2) ':').length →
        (nextLine parseInt line).isSome = true) := by
  refine ⟨?_, ?_, ?_, ?_⟩
  · intro h2
    exact (nextLine_eq_none_iff parseInt line).2 (Or.inr h2)
  · rw [← Split_length_ge_two_iff]
    omega
  · intro mi hmi
    have hf := nextLine_fields parseInt line mi hmi
    refine ⟨?_, hf.2.2.1, hf.2.2.2.1⟩
    have hs : (nextLine parseInt line).isSome = true := by rw [hmi]; rfl
    exact (Split_length_ge_two_iff _ _).2 ((nextLine_isSome_iff parseInt line).1 hs).2
  · intro _ _ _ _ h2
    exact (nextLine_isSome_iff parseInt line).2 ⟨h, (Split_length_ge_two_iff _ _).1 h2⟩

/-- Witness of C12 (amended): a record of 11 fields whose third field is `8` yields no
entry, and the record whose third field is `8:1:2` yields one. -/
theorem nextLine_majorMinor_guard_witness :
    11 ≤ (Split (lineOneComponent ++ ['\n']) ' ').length ∧
      (Split (idx (Split (lineOneComponent ++ ['\n']) ' ') 2) ':').length < 2 ∧
      nextLine (fun _ => 0) (lineOneComponent ++ ['\n']) = none ∧
      11 ≤ (Split (lineThreeComponents ++ ['\n']) ' ').length ∧
      (nextLine (fun _ => 0) (lineThreeComponents ++ ['\n'])).isSome = true :=
  ⟨by decide, by decide,
   (nextLine_majorMinor_guard (fun _ => 0) (lineOneComponent ++ ['\n']) (by decide)).1
     (by decide),
   by decide,
   (nextLine_majorMinor_guard (fun _ => 0) (lineThreeComponents ++ ['\n'])
     (by decide)).2.2.2 (by decide) (by decide) (by decide) (by decide) (by decide)⟩

/-! ## Decoding of the super-block options -/

theorem Split_of_not_mem (s : GoString) (sep : Char) (h : sep ∉ s) : Split s sep = [s] := by
  induction s with
  | nil => rfl
  | cons c cs ih =>
    have hc : c ≠ sep := fun hc => h (by simp [hc])
    have hcs : sep ∉ cs := fun hcs => h (by simp [hcs])
    exact Split_cons_ne c sep cs cs [] hc (ih hcs)

theorem Split_first (s : GoString) (sep : Char) :
    idx (Split s sep) 0 = beforeFirst sep s := by
  induction s with
  | nil => rfl
  | cons c cs ih =>
    by_cases hc : c = sep
    · subst hc
      rw [Split_cons_eq]
      simp [idx, beforeFirst]
    · obtain ⟨w, ws, hw⟩ := List.exists_cons_of_ne_nil (Split_ne_nil cs sep)
      rw [Split_cons_ne c sep cs w ws hc hw]
      rw [hw] at ih
      simp only [idx, List.getD_cons_zero, beforeFirst] at ih ⊢
      rw [List.takeWhile_cons_of_pos (by simpa using hc), ih]

theorem Split_second (s : GoString) (sep : Char) (h : s.count sep = 1) :
    idx (Split s sep) 1 = afterFirst sep s := by
  induction s with
  | nil => simp at h
  | cons c cs ih =>
    by_cases hc : c = sep
    · subst hc
      rw [List.count_cons_self] at h
      have hcs : c ∉ cs := List.count_eq_zero.1 (by omega)
      rw [Split_cons_eq, Split_of_not_mem cs c hcs]
      simp [idx, afterFirst]
    · obtain ⟨w, ws, hw⟩ := List.exists_cons_of_ne_nil (Split_ne_nil cs sep)
      rw [List.count_cons_of_ne (Ne.symm hc)] at h
      have ih' := ih h
      rw [Split_cons_ne c sep cs w ws hc hw]
      rw [hw] at ih'
      simp only [idx, afterFirst] at ih' ⊢
      rw [List.dropWhile_cons_of_pos (by simpa using hc), ← ih']
      rfl

theorem superOption_eq (item : GoString) :
    superOption item =
      { Name := beforeFirst '=' item
        Value := if item.count '=' = 1 then afterFirst '=' item else [] } := by
  unfold superOption
  simp only [Split_first, Split_length]
  by_cases h : item.count '=' = 1
  · simp [h, Split_second item '=' h]
  · have h' : ¬ (item.count '=' + 1 = 2) := by omega
    simp [h, h']

/-! ## Claims on the decoding of a record -/

/-- C13, as stated, fails: the item `a=b=c` is decoded to Name `a` and an empty Value,
not to the Value `b=c` that follows its first `=`; so is it inside the accepted record
`lineTwoEquals`. -/
theorem superOption_two_equals :
    superOption "a=b=c".toList = { Name := "a".toList, Value := [] } ∧
      afterFirst '=' "a=b=c".toList = "b=c".toList ∧
      (nextLine (fun _ => 0) (lineTwoEquals ++ ['\n'])).map (fun m => m.SuperOptions) =
        some [{ Name := "rw".toList, Value := [] }, { Name := "a".toList, Value := [] },
              { Name := "errors".toList, Value := "continue".toList }] := by
  decide

/-- With exactly one optional field (field 6 is not the separator, field 7 is), the
super-options field is field 10. -/
theorem superOptionsField_one_optional (words : List GoString) (h : 11 ≤ words.length)
    (h6 : idx words 6 ≠ ['-']) (h7 : idx words 7 = ['-']) :
    superOptionsField words = idx words 10 := by
  have e6 : words.drop 6 = idx words 6 :: words.drop 7 := by
    rw [List.drop_eq_getElem_cons (by omega)]
    simp [idx, List.getD_eq_getElem?_getD, List.getElem?_eq_getElem (show 6 < words.length by omega)]
  have e7 : words.drop 7 = idx words 7 :: words.drop 8 := by
    rw [List.drop_eq_getElem_cons (by omega)]
    simp [idx, List.getD_eq_getElem?_getD, List.getElem?_eq_getElem (show 7 < words.length by omega)]
  unfold superOptionsField afterSeparator
  rw [e6, List.dropWhile_cons_of_pos (by simpa using h6), e7,
    List.dropWhile_cons_of_neg (by simp [h7])]
  simp [idx, List.getD_eq_getElem?_getD, List.getElem?_drop]

/-- C13, amended: for every primary-format record accepted by the parser that has
exactly one optional field (field 6 is not the separator `-`, field 7 is),
`SuperOptions` has one `Option` per comma-separated item of the super-options field
(the third field after the separator, trailing newline trimmed), in order; Name is the
text before the first `=` of the item (the whole item when it has none); Value is the
text after that `=` when the item has exactly one `=`, and is empty when the item has
no `=` or more than one. -/
theorem superOptions_decoding (parseInt : GoString → Int) (line : GoString)
    (mi : MountInfo) (h : nextLine parseInt line = some mi)
    (h6 : idx (Split line ' ') 6 ≠ ['-']) (h7 : idx (Split line ' ') 7 = ['-']) :
    mi.SuperOptions =
      (Split (TrimRight (superOptionsField (Split line ' ')) ['\n']) ',').map (fun item =>
        { Name := beforeFirst '=' item
          Value := if item.count '=' = 1 then afterFirst '=' item else [] }) := by
  have hs : (nextLine parseInt line).isSome = true := by rw [h]; rfl
  have h11 := ((nextLine_isSome_iff parseInt line).1 hs).1
  rw [(nextLine_fields parseInt line mi h).2.2.2.2,
    superOptionsField_one_optional (Split line ' ') h11 h6 h7]
  exact List.map_congr_left (fun item _ => superOption_eq item)

/-- Witness of C13 (amended): the record of the kernel documentation, with the one
optional field `master:1` and the super options `rw,errors=continue`. -/
theorem superOptions_decoding_witness :
    nextLine (fun _ => 0) (lineOneOptional ++ ['\n']) = some oneOptionalEntry ∧
      superOptionsField (Split (lineOneOptional ++ ['\n']) ' ') =
        "rw,errors=continue\n".toList ∧
      oneOptionalEntry.SuperOptions =
        (Split (TrimRight (superOptionsField (Split (lineOneOptional ++ ['\n']) ' ')) ['\n'])
          ',').map
          (fun item =>
            { Name := beforeFirst '=' item
              Value := if item.count '=' = 1 then afterFirst '=' item else [] }) :=
  ⟨by decide, by decide,
   superOptions_decoding (fun _ => 0) (lineOneOptional ++ ['\n']) oneOptionalEntry
     (by decide) (by decide) (by decide)⟩

theorem MountInfoList.loop_fp (parseInt : GoString → Int) (fuel : Nat) :
    ∀ (records : List Mntent) (res : List MountInfo), records.length < fuel →
      MountInfoList.loop parseInt fuel (.fp records) res =
        res ++ records.map (fun mnt =>
          { Name := mnt.mnt_fsname, Dir := mnt.mnt_dir, Type_ := mnt.mnt_type,
            Options := Split mnt.mnt_opts ',', DumpFrequency := mnt.mnt_freq,
            PassNumber := mnt.mnt_passno, MountID := 0, ParentID := 0, Major := 0,
            Minor := 0, Root := [], OptionalFields := [], SuperOptions := [] }) := by
  induction fuel with
  | zero => intro records res h; omega
  | succ fuel ih =>
    intro records res h
    rw [MountInfoList.loop]
    cases records with
    | nil => simp [mountInfoParser.next]
    | cons mnt rest =>
      simp only [mountInfoParser.next]
      rw [ih rest _ (by simpa using h)]
      simp [MountInfo.zero]

/-- C14: on the legacy source, `next` turns the record `getmntent` returns into an entry
with Name, Dir and Type the source, directory and type of the record, Options its
option text split on `,`, DumpFrequency and PassNumber its two numbers, and zero or
empty MountID, ParentID, Major, Minor, Root, OptionalFields and SuperOptions; it
yields none exactly when no record is left; and `MountInfoList` returns the entries of
all records in order. -/
theorem next_converts_mntent (parseInt : GoString → Int) (mnt : Mntent)
    (records : List Mntent) :
    (mountInfoParser.fp (mnt :: records)).next parseInt =
        (some
          { Name := mnt.mnt_fsname, Dir := mnt.mnt_dir, Type_ := mnt.mnt_type,
            Options := Split mnt.mnt_opts ',', DumpFrequency := mnt.mnt_freq,
            PassNumber := mnt.mnt_passno, MountID := 0, ParentID := 0, Major := 0,
            Minor := 0, Root := [], OptionalFields := [], SuperOptions := [] },
         .fp records) ∧
      (((mountInfoParser.fp records).next parseInt).1 = none ↔ records = []) ∧
      (∀ statfs : GoString → Except GoError Statfs_t,
        MountInfoList { statfs := statfs, procMountinfo := none, mounted := some records,
                        parseInt := parseInt } =
          .ok (records.map (fun mnt =>
            { Name := mnt.mnt_fsname, Dir := mnt.mnt_dir, Type_ := mnt.mnt_type,
              Options := Split mnt.mnt_opts ',', DumpFrequency := mnt.mnt_freq,
              PassNumber := mnt.mnt_passno, MountID := 0, ParentID := 0, Major := 0,
              Minor := 0, Root := [], OptionalFields := [], SuperOptions := [] }))) ∧
      (((mountInfoParser.fp [rootMntent]).next parseInt).1.map (fun m => m.Options) =
        some ["rw".toList, "relatime".toList, "errors=remount-ro".toList]) := by
  refine ⟨rfl, ?_, ?_, ?_⟩
  · cases records with
    | nil => simp [mountInfoParser.next]
    | cons mnt rest => simp [mountInfoParser.next]
  · intro statfs
    unfold MountInfoList newMountInfoParser
    simp only [mountInfoParser.size]
    rw [MountInfoList.loop_fp parseInt _ records [] (by omega)]
    simp
  · have h : Split rootMntent.mnt_opts ',' =
        ["rw".toList, "relatime".toList, "errors=remount-ro".toList] := by decide
    simp only [mountInfoParser.next, Option.map_some', h]

/-! ## Lemmas on a complete update -/

/-- The entry held before the loop only matters when the loop selects nothing. -/
theorem foldl_selectStep_prev (path : GoString) (l : List MountInfo) :
    ∀ (d : Nat) (m0 : Option MountInfo),
      l.foldl (selectStep path) (d, m0) =
        ((l.foldl (selectStep path) (d, none)).1,
         match (l.foldl (selectStep path) (d, none)).2 with
         | some e => some e
         | none => m0) := by
  induction l with
  | nil => intro d m0; rfl
  | cons x xs ih =>
    intro d m0
    simp only [List.foldl_cons]
    by_cases c : (HasPrefix path x.Dir && decide (d < x.Dir.length)) = true
    · have h1 : selectStep path (d, m0) x = (x.Dir.length, some x) := by
        simp only [selectStep, c, if_true]
      have h2 : selectStep path (d, none) x = (x.Dir.length, some x) := by
        simp only [selectStep, c, if_true]
      rw [h1, h2, ih x.Dir.length (some x)]
      cases (xs.foldl (selectStep path) (x.Dir.length, none)).2 <;> rfl
    · have h1 : selectStep path (d, m0) x = (d, m0) := by
        simp only [selectStep, c]
        rfl
      have h2 : selectStep path (d, none) x = (d, none) := by
        simp only [selectStep, c]
        rfl
      rw [h1, h2]
      exact ih d m0

theorem resolveFrom_eq (path : GoString) (prev : Option MountInfo)
    (entries : List MountInfo) :
    resolveFrom path prev entries =
      match resolve path entries with
      | some e => some e
      | none => prev := by
  unfold resolve resolveFrom
  rw [foldl_selectStep_prev path entries 0 prev]

theorem resolveFrom_idem (path : GoString) (prev : Option MountInfo)
    (entries : List MountInfo) :
    resolveFrom path (resolveFrom path prev entries) entries =
      resolveFrom path prev entries := by
  rw [resolveFrom_eq path (resolveFrom path prev entries), resolveFrom_eq path prev]
  cases resolve path entries <;> rfl

theorem MountInfoList_error (env : Env) (err : GoError)
    (h : MountInfoList env = .error err) : newMountInfoParser env = .error err := by
  unfold MountInfoList at h
  cases hp : newMountInfoParser env with
  | error e =>
    rw [hp] at h
    simpa using h
  | ok parser => rw [hp] at h; cases h

/-- A complete update whose query succeeds and whose mount table opens. -/
theorem update_ok (env : Env) (fs : FSstat) (buf : Statfs_t) (entries : List MountInfo)
    (h1 : env.statfs fs.path = .ok buf) (h2 : MountInfoList env = .ok entries) :
    fs.update env =
      ({ capacity := mulU64 buf.Blocks (toU64 buf.Frsize)
         free := mulU64 buf.Bfree (toU64 buf.Frsize)
         available := mulU64 buf.Bavail (toU64 buf.Frsize)
         fstype := buf.Type_
         flags := buf.Flags
         mountInfo := resolveFrom fs.path fs.mountInfo entries
         path := fs.path }, none) := by
  unfold FSstat.update FSstat.setPath
  simp only [h1]
  rw [initMountInfo_eq_resolveFrom env _ _ entries h2]

/-- A complete update whose query succeeds and whose mount table cannot be opened. -/
theorem update_open_failed (env : Env) (fs : FSstat) (buf : Statfs_t) (err : GoError)
    (h1 : env.statfs fs.path = .ok buf) (h2 : MountInfoList env = .error err) :
    fs.update env =
      ({ capacity := mulU64 buf.Blocks (toU64 buf.Frsize)
         free := mulU64 buf.Bfree (toU64 buf.Frsize)
         available := mulU64 buf.Bavail (toU64 buf.Frsize)
         fstype := buf.Type_
         flags := buf.Flags
         mountInfo := fs.mountInfo
         path := fs.path }, some err) := by
  unfold FSstat.update FSstat.setPath FSstat.initMountInfo
  simp only [h1, MountInfoList_error env err h2]

/-- Running `update` again in the same environment changes nothing. -/
theorem update_update (env : Env) (fs : FSstat) :
    (fs.update env).1.update env = fs.update env := by
  cases h1 : env.statfs fs.path with
  | error e =>
    rw [update_statfs_error env fs e h1]
    exact update_statfs_error env fs e h1
  | ok buf =>
    cases h2 : MountInfoList env with
    | error e =>
      rw [update_open_failed env fs buf e h1 h2]
      simp only
      exact update_open_failed env
        { capacity := mulU64 buf.Blocks (toU64 buf.Frsize)
          free := mulU64 buf.Bfree (toU64 buf.Frsize)
          available := mulU64 buf.Bavail (toU64 buf.Frsize)
          fstype := buf.Type_
          flags := buf.Flags
          mountInfo := fs.mountInfo
          path := fs.path } buf e h1 h2
    | ok entries =>
      rw [update_ok env fs buf entries h1 h2]
      simp only
      have h3 := update_ok env
        { capacity := mulU64 buf.Blocks (toU64 buf.Frsize)
          free := mulU64 buf.Bfree (toU64 buf.Frsize)
          available := mulU64 buf.Bavail (toU64 buf.Frsize)
          fstype := buf.Type_
          flags := buf.Flags
          mountInfo := resolveFrom fs.path fs.mountInfo entries
          path := fs.path } buf entries h1 h2
      rw [h3]
      simp only [resolveFrom_idem]

/-- When no entry of the table is a prefix of the path, a successful `Update()` keeps
the mount entry the object held before, while `SetPath` leaves none. -/
theorem update_unresolved (env : Env) (fs : FSstat) (buf : Statfs_t)
    (entries : List MountInfo) (h1 : env.statfs fs.path = .ok buf)
    (h2 : MountInfoList env = .ok entries)
    (h3 : ∀ e ∈ entries, ¬ e.Dir <+: fs.path) :
    (fs.update env).2 = none ∧ (fs.update env).1.mountInfo = fs.mountInfo := by
  have hnone : resolve fs.path entries = none := by
    cases hr : resolve fs.path entries with
    | none => rfl
    | some e =>
      obtain ⟨_, hpre, _, i, hi, _⟩ := resolve_some_spec fs.path entries e hr
      exact absurd hpre (h3 e (List.getElem?_mem hi))
  rw [update_ok env fs buf entries h1 h2]
  refine ⟨rfl, ?_⟩
  simp only [resolveFrom_eq, hnone]

/-! ## Claims on the lifecycle of the statistics object -/

/-- C15 (code defect): `initMountInfo` does not clear the mount entry before its loop.
On an object bound to `/data` that holds a mount entry, with a mount table whose only
entry is mounted on `/mnt` (no prefix of `/data`), `Update()` returns a nil error and
the statistics of the query but keeps the earlier mount entry; `SetPath("/data")` on
the same object leaves the mount entry absent. -/
theorem update_keeps_stale_mount_entry :
    MountInfoList otherMountEnv =
        .ok [{ MountInfo.zero with
               Name := "/dev/sda1".toList, Dir := "/mnt".toList, Type_ := "ext4".toList,
               Options := ["rw".toList, "relatime".toList, "errors=remount-ro".toList],
               PassNumber := 1 }] ∧
      HasPrefix dataFs.path "/mnt".toList = false ∧
      (dataFs.Update otherMountEnv).2 = none ∧
      (dataFs.Update otherMountEnv).1.BytesCapacity = 1000 * 4096 ∧
      (dataFs.Update otherMountEnv).1.mountInfo =
        some { MountInfo.zero with Dir := "/data".toList } ∧
      (dataFs.SetPath otherMountEnv "/data".toList).2 = none ∧
      (dataFs.SetPath otherMountEnv "/data".toList).1.mountInfo = none := by
  refine ⟨by rfl, by decide, by decide, by decide, by decide, by decide, by decide⟩

/-- C16: after a successful `SetPath(p)`, in the same environment, `Update()` returns a
nil error and leaves the object (capacity, free, available, type, flags, mount entry
and path) as it is, and a second `Update()` gives what the first gave; more generally
`Update()` twice gives what `Update()` once gives, from every state. -/
theorem update_idempotent (env : Env) (fs : FSstat) (p : GoString)
    (h : (fs.SetPath env p).2 = none) :
    (fs.SetPath env p).1.Update env = ((fs.SetPath env p).1, none) ∧
      ((fs.SetPath env p).1.Update env).1.Update env = (fs.SetPath env p).1.Update env ∧
      ∀ fs' : FSstat, (fs'.Update env).1.Update env = fs'.Update env := by
  refine ⟨?_, update_update env _, fun fs' => update_update env fs'⟩
  have h1 : (fs.SetPath env p).1.Update env = fs.SetPath env p :=
    update_update env { fs.invalidate with path := p }
  rw [h1]
  exact Prod.ext rfl h

/-- Witness of C16: `SetPath("/")` on a populated object where `/` can be queried and
the mount table is empty. -/
theorem update_idempotent_witness :
    (dataFs.SetPath rootOnlyEnv "/".toList).2 = none ∧
      (dataFs.SetPath rootOnlyEnv "/".toList).1.Update rootOnlyEnv =
        ((dataFs.SetPath rootOnlyEnv "/".toList).1, none) :=
  ⟨by decide, (update_idempotent rootOnlyEnv dataFs "/".toList (by decide)).1⟩

/-- C17: `SetPath(p)` gives the same object and the same error from any two prior
states, namely those of `update` run on the sentinel object whose path is `p`; no field
of the previous binding takes part. -/
theorem SetPath_independent_of_prior_state (env : Env) (p : GoString) (s1 s2 : FSstat) :
    s1.SetPath env p = s2.SetPath env p ∧
      s1.SetPath env p =
        FSstat.update env
          { capacity := 2 ^ 64 - 1, free := 2 ^ 64 - 1, available := 2 ^ 64 - 1, fstype := 0,
            flags := 0, mountInfo := none, path := p } ∧
      s1.invalidate = s2.invalidate :=
  ⟨rfl, rfl, rfl⟩

/-- C19: let the statistics query for `q` fail with `err`.  On an object whose stored
path is `q`, `Update()` returns `err` and the object unchanged, and it does so whatever
the mount tables hold (they are not consulted); and `SetPath(q)`, from any state,
returns `err` and the object with every field at its sentinel except the path, which
is `q`. -/
theorem failed_query_frame (env : Env) (fs : FSstat) (q : GoString) (err : GoError)
    (h : env.statfs q = .error err) :
    (fs.path = q →
        fs.Update env = (fs, some err) ∧
        ∀ (procMountinfo : Option GoString) (mounted : Option (List Mntent)),
          fs.Update { env with procMountinfo := procMountinfo, mounted := mounted } =
            (fs, some err)) ∧
      fs.SetPath env q =
        ({ capacity := 2 ^ 64 - 1, free := 2 ^ 64 - 1, available := 2 ^ 64 - 1, fstype := 0,
           flags := 0, mountInfo := none, path := q }, some err) := by
  refine ⟨?_, ?_⟩
  · intro hq
    subst hq
    refine ⟨update_statfs_error env fs err h, ?_⟩
    intro pm mt
    exact update_statfs_error _ fs err h
  · exact update_statfs_error env { fs.invalidate with path := q } err h

/-- Witness of C19: an object bound to `/data` where only `/` can be queried. -/
theorem failed_query_frame_witness :
    rootOnlyEnv.statfs "/data".toList = .error (.errno 2) ∧
      dataFs.Update rootOnlyEnv = (dataFs, some (.errno 2)) ∧
      dataFs.SetPath rootOnlyEnv "/data".toList =
        ({ capacity := 2 ^ 64 - 1, free := 2 ^ 64 - 1, available := 2 ^ 64 - 1, fstype := 0,
           flags := 0, mountInfo := none, path := "/data".toList }, some (.errno 2)) :=
  have h := failed_query_frame rootOnlyEnv dataFs "/data".toList (.errno 2) rfl
  ⟨rfl, (h.1 rfl).1, h.2⟩

/-! ## The acceptance condition of `next` -/

theorem ReadString_append (delim : Char) (l rest : GoString) (h : delim ∉ l) :
    ReadString delim (l ++ delim :: rest) = some (l ++ [delim], rest) := by
  induction l with
  | nil => simp [ReadString]
  | cons c cs ih =>
    have hc : c ≠ delim := fun hc => h (by simp [hc])
    have hcs : delim ∉ cs := fun hcs => h (by simp [hcs])
    have ih' := ih hcs
    simp only [List.cons_append, ReadString, if_neg hc]
    show (match ReadString delim (cs ++ delim :: rest) with
      | none => none
      | some (line, rest) => some (c :: line, rest)) = some (c :: (cs ++ [delim]), rest)
    rw [ih']

theorem ReadString_some (delim : Char) (content : GoString) :
    ∀ line rest, ReadString delim content = some (line, rest) →
      ∃ l, delim ∉ l ∧ line = l ++ [delim] ∧ content = l ++ delim :: rest := by
  induction content with
  | nil => intro line rest h; simp [ReadString] at h
  | cons c cs ih =>
    intro line rest h
    by_cases hc : c = delim
    · subst hc
      simp only [ReadString, if_true, Option.some.injEq, Prod.mk.injEq] at h
      exact ⟨[], by simp, by simp [h.1], by simp [h.2]⟩
    · simp only [ReadString, if_neg hc] at h
      cases hr : ReadString delim cs with
      | none => rw [hr] at h; simp at h
      | some lr =>
        obtain ⟨line', rest'⟩ := lr
        rw [hr] at h
        simp only [Option.some.injEq, Prod.mk.injEq] at h
        obtain ⟨l, h1, h2, h3⟩ := ih line' rest' hr
        refine ⟨c :: l, ?_, ?_, ?_⟩
        · simp only [List.mem_cons, not_or]
          exact ⟨Ne.symm hc, h1⟩
        · rw [← h.1, h2]; rfl
        · rw [h3, ← h.2]; rfl

theorem ReadString_none (delim : Char) (content : GoString) (h : delim ∉ content) :
    ReadString delim content = none := by
  induction content with
  | nil => rfl
  | cons c cs ih =>
    have hc : c ≠ delim := fun hc => h (by simp [hc])
    have hcs : delim ∉ cs := fun hcs => h (by simp [hcs])
    simp only [ReadString, if_neg hc, ih hcs]

/-- The pieces that decide acceptance are the same with and without the terminator. -/
theorem line_pieces (l : GoString) :
    (11 ≤ (Split (l ++ ['\n']) ' ').length ∧ ':' ∈ idx (Split (l ++ ['\n']) ' ') 2) ↔
      (11 ≤ (Split l ' ').length ∧ ':' ∈ idx (Split l ' ') 2) := by
  rw [Split_length_append l '\n' ' ' (by decide)]
  constructor
  · rintro ⟨h1, h2⟩
    rw [Split_append_idx l '\n' ' ' (by decide) 2 (by omega)] at h2
    exact ⟨h1, h2⟩
  · rintro ⟨h1, h2⟩
    rw [Split_append_idx l '\n' ' ' (by decide) 2 (by omega)]
    exact ⟨h1, h2⟩

/-- C18: `next` yields an entry on the primary source exactly when the unread content
starts with a line `l` terminated by a newline, `l` split on single spaces has at
least 11 pieces, and the third piece contains a `:`; nothing else (the separator,
integer syntax, further colons, empty pieces, the helper `parseInt`) takes part.  A
content without newline yields nothing, as does the well-formed record
`lineOneOptional` without its terminator, while the terminated line of spaces and one
colon is accepted. -/
theorem next_accepts_iff (parseInt : GoString → Int) (content : GoString) :
    ((((mountInfoParser.reader content).next parseInt).1.isSome = true) ↔
        ∃ l rest, '\n' ∉ l ∧ content = l ++ '\n' :: rest ∧
          11 ≤ (Split l ' ').length ∧ ':' ∈ idx (Split l ' ') 2) ∧
      ('\n' ∉ content → ((mountInfoParser.reader content).next parseInt).1 = none) ∧
      ((mountInfoParser.reader lineOneOptional).next parseInt).1 = none ∧
      ((mountInfoParser.reader (lineOneOptional ++ ['\n'])).next parseInt).1.isSome = true ∧
      ((mountInfoParser.reader (lineEmptyPieces ++ ['\n'])).next parseInt).1.isSome = true := by
  have hacc : ∀ l rest : GoString, '\n' ∉ l → 11 ≤ (Split l ' ').length →
      ':' ∈ idx (Split l ' ') 2 →
      ((mountInfoParser.reader (l ++ '\n' :: rest)).next parseInt).1.isSome = true := by
    intro l rest h1 h3 h4
    rw [next_reader_some parseInt _ _ _ (ReadString_append '\n' l rest h1)]
    exact (nextLine_isSome_iff parseInt _).2 ((line_pieces l).2 ⟨h3, h4⟩)
  refine ⟨⟨?_, ?_⟩, ?_, ?_, ?_, ?_⟩
  · intro h
    cases hr : ReadString '\n' content with
    | none =>
      rw [next_reader_none parseInt content hr] at h
      simp at h
    | some lr =>
      obtain ⟨line, rest⟩ := lr
      rw [next_reader_some parseInt content line rest hr] at h
      obtain ⟨l, h1, h2, h3⟩ := ReadString_some '\n' content line rest hr
      rw [h2] at h
      have := (line_pieces l).1 ((nextLine_isSome_iff parseInt _).1 h)
      exact ⟨l, rest, h1, h3, this.1, this.2⟩
  · rintro ⟨l, rest, h1, h2, h3, h4⟩
    rw [h2]
    exact hacc l rest h1 h3 h4
  · intro h
    rw [next_reader_none parseInt content (ReadString_none '\n' content h)]
  · rw [next_reader_none parseInt _ (ReadString_none '\n' lineOneOptional (by decide))]
  · exact hacc lineOneOptional [] (by decide) (by decide) (by decide)
  · exact hacc lineEmptyPieces [] (by decide) (by decide) (by decide)

/-! ## Where the stream of entries stops -/

theorem untilNone_spec {α : Type} (xs : List (Option α)) :
    xs.take (untilNone xs).length = (untilNone xs).map some ∧
      (∀ i, xs[i]? = some none → (untilNone xs).length ≤ i) ∧
      ((∀ x ∈ xs, x ≠ none) → (untilNone xs).length = xs.length) := by
  induction xs with
  | nil => simp [untilNone]
  | cons x xs ih =>
    cases x with
    | none =>
      refine ⟨by simp [untilNone], fun i _ => by simp [untilNone], ?_⟩
      intro h
      exact absurd rfl (h none (by simp))
    | some a =>
      obtain ⟨h1, h2, h3⟩ := ih
      refine ⟨by simp [untilNone, h1], ?_, ?_⟩
      · intro i hi
        cases i with
        | zero => simp at hi
        | succ i =>
          have := h2 i (by simpa using hi)
          simp only [untilNone, List.length_cons]
          omega
      · intro h
        have := h3 (fun x hx => h x (by simp [hx]))
        simp only [untilNone, List.length_cons]
        omega

theorem wellFormedLine_accepted (parseInt : GoString → Int) (l : GoString)
    (h : wellFormedLine l = true) : nextLine parseInt (l ++ ['\n']) ≠ none := by
  unfold wellFormedLine at h
  simp only [Bool.and_eq_true, decide_eq_true_eq] at h
  obtain ⟨⟨⟨⟨⟨h11, _⟩, _⟩, h2⟩, _⟩, _⟩ := h
  have hmem : ':' ∈ idx (Split l ' ') 2 := (Split_length_ge_two_iff _ _).1 (by omega)
  have hs := (nextLine_isSome_iff parseInt (l ++ ['\n'])).2 ((line_pieces l).2 ⟨h11, hmem⟩)
  intro hn
  rw [hn] at hs
  simp at hs

/-! ## Claim on the end of the stream -/

/-- C9, as stated, fails twice.  The line `lineShortPadded` has five fields, yet `next`
counts 11 pieces between single spaces and yields an entry with partial data (Dir
`/boot`, empty Type and Name), and the next line is returned too.  The line
`lineBadInts` is malformed (no field of it is an integer), yet it yields an entry and
the next line is returned too. -/
theorem MountInfoList_continues_past_malformed :
    ((Fields lineShortPadded).length = 5 ∧
        (match MountInfoList paddedEnv with
          | .ok es => es.map (fun m => (m.Dir, m.Type_, m.Name))
          | .error _ => []) =
          [("/boot".toList, [], []), ("/mnt2".toList, "ext3".toList, "/dev/root".toList)]) ∧
      (wellFormedLine lineBadInts = false ∧
        isIntegerString (idx (Split lineBadInts ' ') 0) = false ∧
        (match MountInfoList badIntsEnv with
          | .ok es => es.map (fun m => (m.Dir, m.Type_, m.Name))
          | .error _ => []) =
          [("/mnt2".toList, "ext3".toList, "/dev/root".toList),
           ("/mnt2".toList, "ext3".toList, "/dev/root".toList)]) := by
  refine ⟨⟨by decide, by rfl⟩, by decide, by decide, by rfl⟩

/-- C9, amended: on a primary source, `MountInfoList` returns, in file order and
without gaps, the entries `next` parses from the first `k` complete lines, for some
`k` (the length of the result).  A line with fewer than 11 pieces between single
spaces (consecutive spaces delimit empty pieces, which count) yields no entry, and `k`
does not exceed its position: no entry comes from that line or from any later line,
whatever those lines are.  When every complete line is well-formed (at least 11
pieces, integer mount ID and parent ID, a third piece of exactly two integer
components), every line yields its entry. -/
theorem MountInfoList_stops_at_short_line (env : Env) (content : GoString)
    (h : env.procMountinfo = some content) :
    ∃ es : List MountInfo,
      MountInfoList env = .ok es ∧ es.length ≤ (completeLines content).length ∧
      ((completeLines content).take es.length).map
          (fun l => nextLine env.parseInt (l ++ ['\n'])) = es.map some ∧
      (∀ (i : Nat) (l : GoString), (completeLines content)[i]? = some l →
        (Split l ' ').length < 11 →
        nextLine env.parseInt (l ++ ['\n']) = none ∧ es.length ≤ i) ∧
      ((∀ l ∈ completeLines content, wellFormedLine l = true) →
        es.length = (completeLines content).length) := by
  obtain ⟨h1, h2, h3⟩ := untilNone_spec
    ((completeLines content).map (fun l => nextLine env.parseInt (l ++ ['\n'])))
  refine ⟨_, (MountInfoList_primary env content h).1, ?_, ?_, ?_, ?_⟩
  · have := congrArg List.length h1
    simp only [List.length_take, List.length_map] at this
    omega
  · rw [← h1, List.map_take]
  · intro i l hi hshort
    have hnone : nextLine env.parseInt (l ++ ['\n']) = none :=
      (nextLine_eq_none_iff env.parseInt _).2
        (Or.inl (by rw [Split_length_append l '\n' ' ' (by decide)]; exact hshort))
    refine ⟨hnone, h2 i ?_⟩
    rw [List.getElem?_map, hi, Option.map_some', hnone]
  · intro hall
    have := h3 (by
      intro x hx
      obtain ⟨l, hl, rfl⟩ := List.mem_map.1 hx
      exact wellFormedLine_accepted env.parseInt l (hall l hl))
    simpa using this

set_option maxRecDepth 8000 in
/-- Witness of C9 (amended): a well-formed record, a record of five pieces and the
well-formed record again; only the first is returned. -/
theorem MountInfoList_stops_at_short_line_witness :
    shortLineEnv.procMountinfo =
        some (joinLines [lineOneOptional] ++ lineShort ++ ['\n'] ++
          joinLines [lineOneOptional]) ∧
      completeLines (joinLines [lineOneOptional] ++ lineShort ++ ['\n'] ++
          joinLines [lineOneOptional]) = [lineOneOptional, lineShort, lineOneOptional] ∧
      (match MountInfoList shortLineEnv with
        | .ok es => es
        | .error _ => []) = [oneOptionalEntry] ∧
      ∃ es : List MountInfo,
        MountInfoList shortLineEnv = .ok es ∧
        es.length ≤ (completeLines (joinLines [lineOneOptional] ++ lineShort ++ ['\n'] ++
          joinLines [lineOneOptional])).length ∧
        ((completeLines (joinLines [lineOneOptional] ++ lineShort ++ ['\n'] ++
            joinLines [lineOneOptional])).take es.length).map
            (fun l => nextLine shortLineEnv.parseInt (l ++ ['\n'])) = es.map some ∧
        (∀ (i : Nat) (l : GoString),
          (completeLines (joinLines [lineOneOptional] ++ lineShort ++ ['\n'] ++
            joinLines [lineOneOptional]))[i]? = some l →
          (Split l ' ').length < 11 →
          nextLine shortLineEnv.parseInt (l ++ ['\n']) = none ∧ es.length ≤ i) ∧
        ((∀ l ∈ completeLines (joinLines [lineOneOptional] ++ lineShort ++ ['\n'] ++
            joinLines [lineOneOptional]), wellFormedLine l = true) →
          es.length = (completeLines (joinLines [lineOneOptional] ++ lineShort ++ ['\n'] ++
            joinLines [lineOneOptional])).length) :=
  ⟨rfl, by decide, by decide, MountInfoList_stops_at_short_line shortLineEnv _ rfl⟩

end Fsstat
